import Mathlib

/-!
Verification of the rotating file logger (`fileLogger.c` from open-vm-tools,
`src/lib/glibUtils/fileLogger.c`).

The development shallowly embeds the C code:

* the filesystem is an abstract map from paths to entries (regular file with
  content, or directory); paths are an abstract type `P` with decidable
  equality, generated per rotation index by a function `getPath : Nat → P`
  (in the C code this is `FileLoggerGetPath`, modelled separately at the
  level of character lists);
* the `FileLogger` struct is a Lean structure; `gint` values are `Int` with
  explicit wrap-around at 2^32 (two's complement) and `guint`/`guint64`
  values are `Nat` with explicit `% 2^32` / `% 2^64` where the C code can
  overflow;
* `FileLoggerOpen` and `FileLoggerLog` are state-passing functions over the
  filesystem and the logger state.  I/O primitives are modelled as the glib
  documentation describes them on an abstract filesystem: `g_unlink`
  succeeds on non-directories, `g_rename` succeeds when the source exists,
  `g_stat` succeeds on an existing entry, `g_fopen` fails on a directory.
  `fputs` appends to the content of the path the stream was opened on.
-/

namespace FileLoggerModel

/-- 2^31, bound of the positive range of a 32-bit `gint`. -/
def g31 : Int := 2147483648

/-- 2^32, modulus of 32-bit integer arithmetic (`gint`/`guint`). -/
def g32 : Int := 4294967296

/-- 2^32 as a natural number. -/
def n32 : Nat := 4294967296

/-- 2^64 as an integer, modulus of `guint64` arithmetic. -/
def g64 : Int := 18446744073709551616

/-- Wrap an unbounded integer to the two's-complement range of a 32-bit
`gint`, `[-2^31, 2^31)`. -/
def gintWrap (i : Int) : Int := (i + g31) % g32 - g31

/-- Embed a natural number (e.g. `st_size` of a file) into `gint`, as the C
cast `(gint) fstats.st_size` does. -/
def gintOfNat (n : Nat) : Int := gintWrap n

/-- Convert a `gint` value to `guint64`, as the C usual arithmetic conversion
does in `logSize >= maxSize` (negative values become huge). -/
def gintToGuint64 (i : Int) : Nat := (i % g64).toNat

/-- A filesystem entry: a regular file with its byte content (bytes modelled
as characters), or a directory. -/
inductive Entry where
  | reg (content : List Char)
  | dir
  deriving DecidableEq

/-- The filesystem: a map from paths to entries; `none` means the path does
not exist. -/
def Fs (P : Type) : Type := P → Option Entry

/-- Create or replace the entry at path `p`. -/
def fsSet {P : Type} [DecidableEq P] (fs : Fs P) (p : P) (e : Entry) : Fs P :=
  fun q => if q = p then some e else fs q

/-- Delete the entry at path `p` (`g_unlink`, modelled as succeeding). -/
def fsRemove {P : Type} [DecidableEq P] (fs : Fs P) (p : P) : Fs P :=
  fun q => if q = p then none else fs q

/-- `g_rename(src, dest)`: moves the entry at `src` to `dest`; if `src` does
not exist the rename fails and nothing changes. -/
def fsRename {P : Type} [DecidableEq P] (fs : Fs P) (src dest : P) : Fs P :=
  match fs src with
  | none => fs
  | some e => fun q => if q = dest then some e else if q = src then none else fs q

/-- `g_file_test(p, G_FILE_TEST_EXISTS)`. -/
def fsExists {P : Type} (fs : Fs P) (p : P) : Bool := (fs p).isSome

/-- `g_file_test(p, G_FILE_TEST_IS_REGULAR)`. -/
def isRegular {P : Type} (fs : Fs P) (p : P) : Bool :=
  match fs p with
  | some (.reg _) => true
  | _ => false

/-- `g_file_test(p, G_FILE_TEST_IS_DIR)`. -/
def isDir {P : Type} (fs : Fs P) (p : P) : Bool :=
  match fs p with
  | some .dir => true
  | _ => false

/-- `st_size` reported by `g_stat` for an existing entry (content length for
a regular file; a directory reports some size, modelled as 0 — no claim
depends on it). -/
def entrySize {P : Type} (fs : Fs P) (p : P) : Nat :=
  match fs p with
  | some (.reg c) => c.length
  | _ => 0

/-- The mutable state of the `FileLogger` struct (fileLogger.c lines 37-47).
The `path` template is factored out: path generation (`FileLoggerGetPath`)
is passed to the operations as `getPath : Nat → P`, mapping a rotation index
to the expanded path. -/
structure FileLogger (P : Type) where
  file : Option P
  logSize : Int
  maxSize : Nat
  maxFiles : Nat
  append : Bool
  error : Bool

/-- `g_fopen(path, append ? "a" : "w")`: fails on a directory; `"w"` creates
or truncates, `"a"` creates if absent and keeps existing content.  Returns
the updated filesystem on success (the stream is identified by its path). -/
def fopenModel {P : Type} [DecidableEq P] (fs : Fs P) (p : P) (append : Bool) :
    Option (Fs P) :=
  match fs p with
  | some .dir => none
  | some (.reg _) => some (if append then fs else fsSet fs p (.reg []))
  | none => some (fsSet fs p (.reg []))

/-- The scan loop of `FileLoggerOpen` (lines 192-198): for `id` from 0 while
`id < maxFiles`, record the path of index `id` and stop after recording the
first one that is not a regular file.  `fuel` is the remaining number of
loop iterations (`maxFiles - id`). -/
def scanLogs {P : Type} (getPath : Nat → P) (fs : Fs P) : Nat → Nat → List P
  | 0, _ => []
  | fuel + 1, id =>
    let p := getPath id
    if isRegular fs p then p :: scanLogs getPath fs fuel (id + 1) else [p]

/-- One iteration of the rename loop (lines 201-212): given destination and
source paths, rename `src` into `dest` if `dest` is not a directory and
either does not exist or can be unlinked; otherwise delete `src`. -/
def shiftOne {P : Type} [DecidableEq P] (fs : Fs P) (dest src : P) : Fs P :=
  if isDir fs dest then
    fsRemove fs src
  else
    fsRename (if fsExists fs dest then fsRemove fs dest else fs) src dest

/-- The rename loop of `FileLoggerOpen` (lines 201-212), processing the
scanned path list from the highest index down: the argument is the reversed
scan list, and each step shifts the next-lower index into the current one. -/
def shiftRev {P : Type} [DecidableEq P] (fs : Fs P) : List P → Fs P
  | dest :: src :: rest => shiftRev (shiftOne fs dest src) (src :: rest)
  | _ => fs

/-- `FileLoggerOpen` (lines 157-231): if the index-0 path exists, stat it
into `logSize`; then, if `append` is false or `logSize >= maxSize` (the
comparison converting the `gint` size to `guint64`), shift the backups,
reset `logSize` to 0 and force `append` to false; finally open the index-0
path in append or truncate mode.  Returns the filesystem, the updated state
and the file handle (`none` on open failure). -/
def fileLoggerOpen {P : Type} [DecidableEq P] (getPath : Nat → P) (fs : Fs P)
    (st : FileLogger P) : Fs P × FileLogger P × Option P :=
  let path := getPath 0
  let r1 :
      Fs P × FileLogger P :=
    if fsExists fs path then
      let st' := { st with logSize := gintOfNat (entrySize fs path) }
      if st'.append = false ∨ st'.maxSize ≤ gintToGuint64 st'.logSize then
        let files := scanLogs getPath fs st'.maxFiles 0
        (shiftRev fs files.reverse, { st' with logSize := 0, append := false })
      else
        (fs, st')
    else
      (fs, st)
  match fopenModel r1.1 path r1.2.append with
  | some fs2 => (fs2, r1.2, some path)
  | none => (r1.1, r1.2, none)

/-- `fputs(message, file)` for a stream opened on path `f`: append the
message bytes to the content at `f` (the open stream keeps writing even if
the directory entry changed; no claim exercises that corner, so the content
is keyed by the path). -/
def fsAppend {P : Type} [DecidableEq P] (fs : Fs P) (f : P) (msg : List Char) : Fs P :=
  match fs f with
  | some (.reg c) => fsSet fs f (.reg (c ++ msg))
  | _ => fsSet fs f (.reg msg)

/-- The extra byte per message accounted on platforms with a two-character
line terminator (`#if defined(_WIN32)`, line 285-288). -/
def adjBytes (win32 : Bool) : Nat := if win32 then 1 else 0

/-- The write-and-account part of `FileLoggerLog` (lines 282-306), given an
open file handle `f`.  On a successful `fputs`: if `maxSize > 0`, add the
message length (plus the platform adjustment) to `logSize` in `gint`
arithmetic; if the size reaches `maxSize` (as `guint64`), close the file,
clear `append` and reopen via `FileLoggerOpen` (which rotates).  The third
component counts the rotations performed by the call. -/
def logWrite {P : Type} [DecidableEq P] (getPath : Nat → P) (win32 : Bool)
    (msg : List Char) (fs : Fs P) (st : FileLogger P) (f : P) :
    Fs P × FileLogger P × Nat :=
  let fs1 := fsAppend fs f msg
  if 0 < st.maxSize then
    let sz1 := gintWrap (st.logSize + msg.length)
    let sz2 := if win32 then gintWrap (sz1 + 1) else sz1
    if st.maxSize ≤ gintToGuint64 sz2 then
      let st2 : FileLogger P := { st with logSize := sz2, append := false, file := none }
      let r := fileLoggerOpen getPath fs1 st2
      (r.1, { r.2.1 with file := r.2.2 }, 1)
    else
      (fs1, { st with logSize := sz2 }, 0)
  else
    (fs1, st, 0)

/-- `FileLoggerLog` (lines 249-310) in its sequential (single-caller)
semantics: drop the message if `error` is set; open the file lazily, setting
`error` on failure; otherwise write and account.  The lock protocol around
these steps is modelled separately for the concurrency claim.  The third
component counts rotations performed by the call. -/
def fileLoggerLog {P : Type} [DecidableEq P] (getPath : Nat → P) (win32 : Bool)
    (msg : List Char) (fs : Fs P) (st : FileLogger P) :
    Fs P × FileLogger P × Nat :=
  if st.error = true then
    (fs, st, 0)
  else
    match st.file with
    | some f => logWrite getPath win32 msg fs st f
    | none =>
      let r := fileLoggerOpen getPath fs st
      match r.2.2 with
      | none => (r.1, { r.2.1 with file := none, error := true }, 0)
      | some f => logWrite getPath win32 msg r.1 { r.2.1 with file := some f } f

/-- Sequential composition of `FileLoggerLog` over a list of messages,
accumulating the rotation count. -/
def logMany {P : Type} [DecidableEq P] (getPath : Nat → P) (win32 : Bool)
    (msgs : List (List Char)) (fs : Fs P) (st : FileLogger P) :
    Fs P × FileLogger P × Nat :=
  match msgs with
  | [] => (fs, st, 0)
  | m :: rest =>
    let r := fileLoggerLog getPath win32 m fs st
    let r2 := logMany getPath win32 rest r.1 r.2.1
    (r2.1, r2.2.1, r.2.2 + r2.2.2)

/-- `GlibUtils_CreateFileLogger` (lines 353-381): the struct starts zeroed
(`g_new0`), `maxSize` is the configured megabyte count times 1024*1024
computed in 32-bit `guint` arithmetic, and `maxFiles` is the configured
backup count plus one (the active file). -/
def createFileLogger (P : Type) (append : Bool) (maxSizeMB maxFilesCfg : Nat) :
    FileLogger P :=
  { file := none
    logSize := 0
    maxSize := maxSizeMB * 1024 * 1024 % n32
    maxFiles := (maxFilesCfg + 1) % n32
    append := append
    error := false }

/-! Concrete instances used to evaluate the model on specific inputs. -/

/-- Paths indexed directly by their rotation index. -/
def natPath : Nat → Nat := fun i => i

/-- A sink configured with `append = true` and `maxSize = 0` (one configured
backup, so internal `maxFiles = 2`). -/
def c1st : FileLogger Nat :=
  { file := none, logSize := 0, maxSize := 0, maxFiles := 2,
    append := true, error := false }

/-- A filesystem whose index-0 log file exists with content "A". -/
def c1fs : Fs Nat := fun q => if q = 0 then some (.reg ['A']) else none

/-- A sink created with configured backup count 0 (internal `maxFiles = 1`),
`append = false`, 1 MB size limit. -/
def c2st : FileLogger Nat := createFileLogger Nat false 1 0

/-- A filesystem whose index-0 log file exists with content "A". -/
def c2fs : Fs Nat := fun q => if q = 0 then some (.reg ['A']) else none

/-- A sink whose sticky `error` flag is set. -/
def c7st : FileLogger Nat :=
  { file := none, logSize := 5, maxSize := 1048576, maxFiles := 2,
    append := true, error := true }

/-- An arbitrary filesystem for the sticky-error evaluation. -/
def c7fs : Fs Nat := fun q => if q = 0 then some (.reg ['A']) else none

/-- The number of bytes `FileLoggerLog` adds to `logSize` for one message:
its length plus the platform adjustment. -/
def msgCost (win32 : Bool) (m : List Char) : Nat := m.length + adjBytes win32

/-- Total bytes accounted for a list of messages. -/
def totalCost (win32 : Bool) (msgs : List (List Char)) : Nat :=
  (msgs.map (msgCost win32)).sum

/-- A sink with an open file at index 0 and an 8-byte size limit (tiny, to
exercise the rotation threshold). -/
def c4st : FileLogger Nat :=
  { file := some 0, logSize := 0, maxSize := 8, maxFiles := 2,
    append := true, error := false }

/-- A filesystem with an empty regular file at index 0. -/
def c4fs : Fs Nat := fun q => if q = 0 then some (.reg []) else none

/-- A sink configured with `maxBackups = 2` (internal `maxFiles = 3`),
`append = false`. -/
def c3st : FileLogger Nat := createFileLogger Nat false 10 2

/-- A filesystem with regular files at indices 0 and 1 and nothing at
index 2. -/
def c3fs : Fs Nat :=
  fun q => if q = 0 then some (.reg ['a']) else if q = 1 then some (.reg ['b']) else none

/-- An empty filesystem: the index-0 path does not exist. -/
def c10fs : Fs Nat := fun _ => none

/-- A sink with a non-zero size counter and `append = true`, about to open a
non-existing file. -/
def c10st : FileLogger Nat :=
  { file := none, logSize := 7, maxSize := 1048576, maxFiles := 3,
    append := true, error := false }

/-!
Model of `FileLoggerGetPath` (fileLogger.c lines 71-138), at the level of
character lists.  The C substitution loop has a pointer quirk: after a
replacement it resumes scanning at `logpath + (start - last) +
strlen(replacement)`, an offset computed relative to the previous scan
position rather than the string start, so with adversarial replacement
values the loop can rescan earlier text and even fail to terminate (e.g. a
user name containing the token being replaced).  The loop is therefore
modelled with explicit fuel; `none` models non-termination or fuel
exhaustion, and every theorem works under hypotheses where the fuel
provably suffices.
-/

/-- First index at which `pat` occurs as a contiguous substring of `s`
(C `strstr`), `none` if it does not occur. -/
def findSubstr (pat : List Char) : List Char → Option Nat
  | [] => if pat.isPrefixOf [] then some 0 else none
  | c :: s =>
    if pat.isPrefixOf (c :: s) then some 0 else (findSubstr pat s).map (· + 1)

/-- The substitution loop of `FileLoggerGetPath` for one variable
(lines 92-109): find the next occurrence of `pat` starting at offset `p`,
splice in `rep`, and resume at offset `(q - p) + rep.length` — the C
pointer arithmetic, which measures the resume point relative to the old
scan position.  `fuel` bounds the number of iterations. -/
def quirkyAux (pat rep : List Char) : Nat → List Char → Nat → Option (List Char)
  | 0, _, _ => none
  | fuel + 1, s, p =>
    match findSubstr pat (s.drop p) with
    | none => some s
    | some j =>
      quirkyAux pat rep fuel
        (s.take (p + j) ++ rep ++ s.drop (p + j + pat.length)) (j + rep.length)

/-- One full substitution pass (the `while` loop for one entry of `vars`),
with fuel `s.length + 1`, which suffices whenever the replacement cannot
create new occurrences of the pattern. -/
def replacePass (pat rep s : List Char) : Option (List Char) :=
  quirkyAux pat rep (s.length + 1) s 0

/-- Left-to-right replace-all with structural fuel (each step consumes at
least one character, so `fuel = s.length` always suffices; on exhausted
fuel the rest is returned as-is). -/
def stdRepF (pat rep : List Char) : Nat → List Char → List Char
  | 0, s => s
  | _ + 1, [] => []
  | fuel + 1, c :: s =>
    if pat ≠ [] ∧ pat.isPrefixOf (c :: s) then
      rep ++ stdRepF pat rep fuel ((c :: s).drop pat.length)
    else
      c :: stdRepF pat rep fuel s

/-- Left-to-right replace-all, the spec-side reading of "all occurrences of
each variable are replaced": scan from the left, replace each occurrence
and continue after the inserted replacement. -/
def stdRep (pat rep s : List Char) : List Char := stdRepF pat rep s.length s

/-- Number of occurrences replaced by `stdRepF` (bounds the iteration count
of the substitution loop), with the same structural fuel. -/
def countOccF (pat : List Char) : Nat → List Char → Nat
  | 0, _ => 0
  | _ + 1, [] => 0
  | fuel + 1, c :: s =>
    if pat ≠ [] ∧ pat.isPrefixOf (c :: s) then
      1 + countOccF pat fuel ((c :: s).drop pat.length)
    else
      countOccF pat fuel s

/-- Number of left-to-right occurrences of `pat` in `s`. -/
def countOcc (pat s : List Char) : Nat := countOccF pat s.length s

/-- The `${USER}` token. -/
def userTok : List Char := ("$\x7bUSER\x7d").data

/-- The `${PID}` token. -/
def pidTok : List Char := ("$\x7bPID\x7d").data

/-- The `${IDX}` token. -/
def idxTok : List Char := ("$\x7bIDX\x7d").data

/-- Index of the last occurrence of character `c` in `s` (C `strrchr`),
`none` if absent. -/
def strrchrIdx (c : Char) : List Char → Option Nat
  | [] => none
  | a :: rest =>
    match strrchrIdx c rest with
    | some k => some (k + 1)
    | none => if a = c then some 0 else none

/-- The index-suffix insertion of `FileLoggerGetPath` (lines 118-135): when
the expanded path needs the index encoded, find the last `'.'` and the last
path separator — the last `'/'`, or the last `'\'` only when the path
contains no `'/'` at all — and insert `.{index}` before the extension when
the dot comes after the separator, else append `.{index}`. -/
def insertIdxSuffix (s : List Char) (idx : Nat) : List Char :=
  let sep := strrchrIdx '.' s
  let psep :=
    match strrchrIdx '/' s with
    | some k => some k
    | none => strrchrIdx '\\' s
  match sep with
  | some d =>
    if (match psep with | none => true | some k => decide (k < d)) then
      s.take d ++ '.' :: (Nat.repr idx).data ++ '.' :: s.drop (d + 1)
    else
      s ++ '.' :: (Nat.repr idx).data
  | none => s ++ '.' :: (Nat.repr idx).data

/-- `FileLoggerGetPath` (lines 71-138): expand `${USER}`, `${PID}` and
`${IDX}` in that order (the user name and pid string are injected as
parameters, per the identity-provider reading of the spec), then, when the
index is non-zero and no `${IDX}` replacement happened (`hasIndex` is set
exactly when the `${IDX}` pass found a first match), encode the index via
`insertIdxSuffix`. -/
def fileLoggerGetPath (tpl user pid : List Char) (index : Nat) :
    Option (List Char) :=
  (replacePass userTok user tpl).bind (fun s1 =>
  (replacePass pidTok pid s1).bind (fun s2 =>
  (replacePass idxTok (Nat.repr index).data s2).map (fun s3 =>
    if index ≠ 0 ∧ findSubstr idxTok s2 = none then insertIdxSuffix s3 index
    else s3)))

/-!
Model of the lazy-open protocol of `FileLoggerLog` (lines 257-279) for the
concurrency claim: `n` threads each run the open phase of one `write` call,
the `GStaticRWLock` is a reader count plus at most one writer (readers
acquire only when no writer holds; a writer acquires only with no readers
and no writer), and a ghost counter records how many times `FileLoggerOpen`
ran.  `FileLoggerOpen` is assumed to succeed, matching the claim's
scenario.  The lock upgrade is release-then-reacquire with a mandatory
re-check, exactly as in the source.
-/

/-- Program counter of one thread running the open phase of
`FileLoggerLog`. -/
inductive LogPC where
  | start
  | hasRead
  | wantW
  | wCheck
  | wOpen
  | wRel
  | reRead
  | done
  deriving DecidableEq

/-- Shared configuration: the lazily-opened file (as a flag), the ghost
count of `FileLoggerOpen` calls, the rw-lock state and each thread's pc. -/
structure LogCfg (n : Nat) where
  fileOpen : Bool
  openCount : Nat
  writer : Option (Fin n)
  readers : Nat
  pc : Fin n → LogPC

/-- Initial configuration: unopened sink, all threads before line 257. -/
def initCfg (n : Nat) : LogCfg n :=
  { fileOpen := false, openCount := 0, writer := none, readers := 0,
    pc := fun _ => LogPC.start }

/-- One interleaving step: each constructor is one atomic transition of one
thread (lock operations, the `file == NULL` tests at lines 263 and 270, the
`FileLoggerOpen` call at line 271, and proceeding to the write phase). -/
inductive LogStep (n : Nat) : LogCfg n → LogCfg n → Prop where
  | acqRead (t : Fin n) (c : LogCfg n) :
      c.pc t = LogPC.start → c.writer = none →
      LogStep n c { c with
        readers := c.readers + 1
        pc := fun u => if u = t then LogPC.hasRead else c.pc u }
  | readOpen (t : Fin n) (c : LogCfg n) :
      c.pc t = LogPC.hasRead → c.fileOpen = true →
      LogStep n c { c with
        readers := c.readers - 1
        pc := fun u => if u = t then LogPC.done else c.pc u }
  | readNull (t : Fin n) (c : LogCfg n) :
      c.pc t = LogPC.hasRead → c.fileOpen = false →
      LogStep n c { c with
        readers := c.readers - 1
        pc := fun u => if u = t then LogPC.wantW else c.pc u }
  | acqWrite (t : Fin n) (c : LogCfg n) :
      c.pc t = LogPC.wantW → c.writer = none → c.readers = 0 →
      LogStep n c { c with
        writer := some t
        pc := fun u => if u = t then LogPC.wCheck else c.pc u }
  | checkNull (t : Fin n) (c : LogCfg n) :
      c.pc t = LogPC.wCheck → c.fileOpen = false →
      LogStep n c { c with
        pc := fun u => if u = t then LogPC.wOpen else c.pc u }
  | checkSome (t : Fin n) (c : LogCfg n) :
      c.pc t = LogPC.wCheck → c.fileOpen = true →
      LogStep n c { c with
        pc := fun u => if u = t then LogPC.wRel else c.pc u }
  | doOpen (t : Fin n) (c : LogCfg n) :
      c.pc t = LogPC.wOpen →
      LogStep n c { c with
        fileOpen := true
        openCount := c.openCount + 1
        pc := fun u => if u = t then LogPC.wRel else c.pc u }
  | relWrite (t : Fin n) (c : LogCfg n) :
      c.pc t = LogPC.wRel →
      LogStep n c { c with
        writer := none
        pc := fun u => if u = t then LogPC.reRead else c.pc u }
  | reAcqRead (t : Fin n) (c : LogCfg n) :
      c.pc t = LogPC.reRead → c.writer = none →
      LogStep n c { c with
        readers := c.readers + 1
        pc := fun u => if u = t then LogPC.hasRead else c.pc u }

/-- Configurations reachable from the unopened sink by any interleaving. -/
inductive LogReach (n : Nat) : LogCfg n → Prop where
  | init : LogReach n (initCfg n)
  | step {c c' : LogCfg n} : LogReach n c → LogStep n c c' → LogReach n c'

/-- The protocol invariant: write-phase pcs hold the writer lock, a thread
about to open has seen the file unopened (protected by the exclusive lock),
the ghost open count tracks the file flag, and finished threads saw the
file open. -/
def LogInv {n : Nat} (c : LogCfg n) : Prop :=
  (∀ t, (c.pc t = LogPC.wCheck ∨ c.pc t = LogPC.wOpen ∨ c.pc t = LogPC.wRel) →
    c.writer = some t) ∧
  (∀ t, c.pc t = LogPC.wOpen → c.fileOpen = false) ∧
  (c.openCount = if c.fileOpen then 1 else 0) ∧
  (∀ t, c.pc t = LogPC.done → c.fileOpen = true)

/-- A two-thread trace: thread 0 opens the file through the full protocol.
Each configuration is the literal successor produced by one step. -/
def c9w0 : LogCfg 2 := initCfg 2

/-- After thread 0 acquires the read lock. -/
def c9w1 : LogCfg 2 :=
  { c9w0 with
    readers := c9w0.readers + 1
    pc := fun u => if u = (0 : Fin 2) then LogPC.hasRead else c9w0.pc u }

/-- After thread 0 sees the file unopened and releases the read lock. -/
def c9w2 : LogCfg 2 :=
  { c9w1 with
    readers := c9w1.readers - 1
    pc := fun u => if u = (0 : Fin 2) then LogPC.wantW else c9w1.pc u }

/-- After thread 0 acquires the write lock. -/
def c9w3 : LogCfg 2 :=
  { c9w2 with
    writer := some 0
    pc := fun u => if u = (0 : Fin 2) then LogPC.wCheck else c9w2.pc u }

/-- After thread 0 re-checks that the file is still unopened. -/
def c9w4 : LogCfg 2 :=
  { c9w3 with pc := fun u => if u = (0 : Fin 2) then LogPC.wOpen else c9w3.pc u }

/-- After thread 0 runs `FileLoggerOpen`. -/
def c9w5 : LogCfg 2 :=
  { c9w4 with
    fileOpen := true
    openCount := c9w4.openCount + 1
    pc := fun u => if u = (0 : Fin 2) then LogPC.wRel else c9w4.pc u }

/-- After thread 0 releases the write lock. -/
def c9w6 : LogCfg 2 :=
  { c9w5 with
    writer := none
    pc := fun u => if u = (0 : Fin 2) then LogPC.reRead else c9w5.pc u }

/-- After thread 0 re-acquires the read lock. -/
def c9w7 : LogCfg 2 :=
  { c9w6 with
    readers := c9w6.readers + 1
    pc := fun u => if u = (0 : Fin 2) then LogPC.hasRead else c9w6.pc u }

/-- After thread 0 sees the open file and proceeds to the write phase. -/
def c9w8 : LogCfg 2 :=
  { c9w7 with
    readers := c9w7.readers - 1
    pc := fun u => if u = (0 : Fin 2) then LogPC.done else c9w7.pc u }

/-- Modelled from the spec claim wording for C5: the last path separator
recognizing both `'/'` and `'\'` jointly (the maximum of the two last
indices), with `.{index}` inserted before the last `'.'` only when that dot
falls after this joint separator. -/
def specInsertIdxClaim (s : List Char) (idx : Nat) : List Char :=
  let psep : Option Nat :=
    match strrchrIdx '/' s, strrchrIdx '\\' s with
    | none, o => o
    | o, none => o
    | some k, some l => some (max k l)
  match strrchrIdx '.' s with
  | some d =>
    if (match psep with | none => true | some k => decide (k < d)) then
      s.take d ++ '.' :: (Nat.repr idx).data ++ '.' :: s.drop (d + 1)
    else
      s ++ '.' :: (Nat.repr idx).data
  | none => s ++ '.' :: (Nat.repr idx).data

end FileLoggerModel

namespace FileLoggerModel

/-! Helper lemmas about the rotation shift. -/

theorem fsRename_other {P : Type} [DecidableEq P] (fs : Fs P) (src dest q : P)
    (hs : q ≠ src) (hd : q ≠ dest) : fsRename fs src dest q = fs q := by
  unfold fsRename
  cases fs src with
  | none => rfl
  | some e => simp [hd, hs]

theorem shiftOne_other {P : Type} [DecidableEq P] (fs : Fs P) (dest src q : P)
    (hd : q ≠ dest) (hs : q ≠ src) : shiftOne fs dest src q = fs q := by
  unfold shiftOne
  split
  · simp [fsRemove, hs]
  · rw [fsRename_other _ _ _ _ hs hd]
    split
    · simp [fsRemove, hd]
    · rfl

theorem shiftOne_src {P : Type} [DecidableEq P] (fs : Fs P) (dest src : P)
    (hne : src ≠ dest) :
    shiftOne fs dest src src = none ∨ shiftOne fs dest src src = fs src := by
  unfold shiftOne
  split
  · left; simp [fsRemove]
  · have hpre : (if fsExists fs dest = true then fsRemove fs dest else fs) src = fs src := by
      split
      · simp [fsRemove, hne]
      · rfl
    unfold fsRename
    rw [hpre]
    cases h : fs src with
    | none => right; exact hpre.trans h
    | some e => left; simp [hne]

theorem shiftRev_last {P : Type} [DecidableEq P] (q : P) :
    ∀ (zs : List P) (fs : Fs P), q ∉ zs →
      shiftRev fs (zs ++ [q]) q = none ∨ shiftRev fs (zs ++ [q]) q = fs q := by
  intro zs
  induction zs with
  | nil => intro fs _; right; simp [shiftRev]
  | cons d zs ih =>
    intro fs hq
    have hqd : q ≠ d := fun h => hq (h ▸ List.mem_cons_self d zs)
    have hqzs : q ∉ zs := fun h => hq (List.mem_cons_of_mem d h)
    cases zs with
    | nil =>
      simp only [List.nil_append, List.cons_append, shiftRev]
      exact shiftOne_src fs d q hqd
    | cons d2 zs2 =>
      have hqd2 : q ≠ d2 := fun h => hqzs (h ▸ List.mem_cons_self d2 zs2)
      have hstep : shiftRev fs ((d :: d2 :: zs2) ++ [q]) =
          shiftRev (shiftOne fs d d2) ((d2 :: zs2) ++ [q]) := rfl
      rw [hstep]
      rcases ih (shiftOne fs d d2) hqzs with h | h
      · left; exact h
      · right; rw [h, shiftOne_other fs d d2 q hqd hqd2]

theorem scanLogs_mem {P : Type} (getPath : Nat → P) (fs : Fs P) :
    ∀ (fuel id : Nat) (x : P), x ∈ scanLogs getPath fs fuel id →
      ∃ j, id ≤ j ∧ x = getPath j := by
  intro fuel
  induction fuel with
  | zero => intro id x hx; simp [scanLogs] at hx
  | succ n ih =>
    intro id x hx
    simp only [scanLogs] at hx
    split at hx
    · rcases List.mem_cons.mp hx with h | h
      · exact ⟨id, le_refl id, h⟩
      · rcases ih (id + 1) x h with ⟨j, hj, hxe⟩
        exact ⟨j, le_trans (Nat.le_succ id) hj, hxe⟩
    · rcases List.mem_singleton.mp hx with h
      exact ⟨id, le_refl id, h⟩

theorem fopen_trunc {P : Type} [DecidableEq P] (fs : Fs P) (p : P) (c : List Char)
    (h : fs p = none ∨ fs p = some (.reg c)) :
    fopenModel fs p false = some (fsSet fs p (.reg [])) := by
  rcases h with h | h <;> simp [fopenModel, h]

theorem scanLogs_pos {P : Type} (getPath : Nat → P) (fs : Fs P) (n id : Nat) :
    scanLogs getPath fs (n + 1) id =
      if isRegular fs (getPath id) then getPath id :: scanLogs getPath fs n (id + 1)
      else [getPath id] := rfl

theorem shiftOne_rename {P : Type} [DecidableEq P] (fs : Fs P) (dest src : P)
    (e : Entry) (hdir : isDir fs dest = false) (hex : fsExists fs dest = false)
    (hsrc : fs src = some e) :
    shiftOne fs dest src =
      fun q => if q = dest then some e else if q = src then none else fs q := by
  unfold shiftOne
  simp only [hdir, Bool.false_eq_true, if_false, hex, fsRename, hsrc]

/-! Lemmas about prefixes and substring search. -/

theorem pfx_length {pat t : List Char} (h : pat.isPrefixOf t = true) :
    pat.length ≤ t.length :=
  (List.isPrefixOf_iff_prefix.mp h).length_le

theorem pfx_ex {pat t : List Char} (h : pat.isPrefixOf t = true) :
    ∃ u, t = pat ++ u := by
  rcases List.isPrefixOf_iff_prefix.mp h with ⟨u, hu⟩
  exact ⟨u, hu.symm⟩

theorem pfx_nil {pat : List Char} (hpat : pat ≠ []) :
    pat.isPrefixOf ([] : List Char) = false := by
  cases pat with
  | nil => exact absurd rfl hpat
  | cons a as => rfl

theorem pfx_append_left {pat a b : List Char} (h : pat.isPrefixOf (a ++ b) = true)
    (hlen : pat.length ≤ a.length) : pat.isPrefixOf a = true := by
  rcases pfx_ex h with ⟨u, hu⟩
  have h1 : pat = (a ++ b).take pat.length := by
    rw [hu]
    exact (List.take_left pat u).symm
  have h2 : (a ++ b).take pat.length = a.take pat.length := by
    rw [List.take_append_eq_append_take, Nat.sub_eq_zero_of_le hlen]
    simp
  rw [List.isPrefixOf_iff_prefix, List.prefix_iff_eq_take]
  exact h1.trans h2

theorem pfx_of_take {pat t : List Char} {k : Nat}
    (h : pat.isPrefixOf (t.take k) = true) : pat.isPrefixOf t = true := by
  rw [List.isPrefixOf_iff_prefix] at h ⊢
  exact h.trans (List.take_prefix k t)

theorem findSubstr_none_occ (pat : List Char) :
    ∀ (s : List Char), findSubstr pat s = none →
      ∀ i, pat.isPrefixOf (s.drop i) = false := by
  intro s
  induction s with
  | nil =>
    intro h i
    unfold findSubstr at h
    split at h
    · exact absurd h (by simp)
    · rename_i hp
      rw [List.drop_nil]
      exact Bool.eq_false_iff.mpr hp
  | cons c s ih =>
    intro h i
    unfold findSubstr at h
    split at h
    · exact absurd h (by simp)
    · rename_i hp
      have hrec : findSubstr pat s = none := by
        cases hf : findSubstr pat s with
        | none => rfl
        | some j => rw [hf] at h; simp at h
      cases i with
      | zero => exact Bool.eq_false_iff.mpr hp
      | succ i => exact ih hrec i

theorem findSubstr_some_occ (pat : List Char) :
    ∀ (s : List Char) (q : Nat), findSubstr pat s = some q →
      pat.isPrefixOf (s.drop q) = true := by
  intro s
  induction s with
  | nil =>
    intro q h
    unfold findSubstr at h
    split at h
    · rename_i hp
      have hq : q = 0 := by simpa using h.symm
      subst hq
      exact hp
    · exact absurd h (by simp)
  | cons c s ih =>
    intro q h
    unfold findSubstr at h
    split at h
    · rename_i hp
      have hq : q = 0 := by simpa using h.symm
      subst hq
      exact hp
    · rename_i hp
      cases hf : findSubstr pat s with
      | none => rw [hf] at h; simp at h
      | some j =>
        rw [hf] at h
        simp at h
        rw [← h]
        exact ih j hf

theorem findSubstr_min (pat : List Char) :
    ∀ (s : List Char) (q : Nat), findSubstr pat s = some q →
      ∀ i, i < q → pat.isPrefixOf (s.drop i) = false := by
  intro s
  induction s with
  | nil =>
    intro q h i hi
    unfold findSubstr at h
    split at h
    · have hq : q = 0 := by simpa using h.symm
      subst hq
      exact absurd hi (by omega)
    · exact absurd h (by simp)
  | cons c s ih =>
    intro q h i hi
    unfold findSubstr at h
    split at h
    · have hq : q = 0 := by simpa using h.symm
      subst hq
      exact absurd hi (by omega)
    · rename_i hp
      cases hf : findSubstr pat s with
      | none => rw [hf] at h; simp at h
      | some j =>
        rw [hf] at h
        simp at h
        cases i with
        | zero => exact Bool.eq_false_iff.mpr hp
        | succ i => exact ih j hf i (by omega)

theorem findSubstr_make (pat : List Char) :
    ∀ (s : List Char) (q : Nat), pat.isPrefixOf (s.drop q) = true →
      (∀ i, i < q → pat.isPrefixOf (s.drop i) = false) →
      findSubstr pat s = some q := by
  intro s
  induction s with
  | nil =>
    intro q hq hmin
    cases q with
    | zero =>
      unfold findSubstr
      rw [if_pos (show pat.isPrefixOf ([] : List Char) = true from hq)]
    | succ q' =>
      have h0 : pat.isPrefixOf ([] : List Char) = false := hmin 0 (by omega)
      rw [List.drop_nil] at hq
      rw [h0] at hq
      exact absurd hq (by simp)
  | cons c s ih =>
    intro q hq hmin
    cases q with
    | zero =>
      unfold findSubstr
      rw [if_pos (show pat.isPrefixOf (c :: s) = true from hq)]
    | succ q' =>
      have h0 : pat.isPrefixOf (c :: s) = false := hmin 0 (by omega)
      unfold findSubstr
      rw [if_neg (by simp [h0])]
      rw [ih q' hq (fun i hi => hmin (i + 1) (by omega))]
      rfl

theorem findSubstr_some_bound {pat s : List Char} {q : Nat} (hpat : pat ≠ [])
    (h : findSubstr pat s = some q) : q + pat.length ≤ s.length := by
  have hlen := pfx_length (findSubstr_some_occ pat s q h)
  rw [List.length_drop] at hlen
  have hne : pat.length ≠ 0 := fun hn => hpat (List.eq_nil_of_length_eq_zero hn)
  omega

/-! Lemmas about the replace-all functions. -/

theorem stdRepF_cons (pat rep : List Char) (fuel : Nat) (c : Char) (s : List Char) :
    stdRepF pat rep (fuel + 1) (c :: s) =
      if pat ≠ [] ∧ pat.isPrefixOf (c :: s) then
        rep ++ stdRepF pat rep fuel ((c :: s).drop pat.length)
      else
        c :: stdRepF pat rep fuel s := rfl

theorem countOccF_cons (pat : List Char) (fuel : Nat) (c : Char) (s : List Char) :
    countOccF pat (fuel + 1) (c :: s) =
      if pat ≠ [] ∧ pat.isPrefixOf (c :: s) then
        1 + countOccF pat fuel ((c :: s).drop pat.length)
      else
        countOccF pat fuel s := rfl

theorem patlen_pos {pat : List Char} (hpat : pat ≠ []) : pat.length ≠ 0 :=
  fun hn => hpat (List.eq_nil_of_length_eq_zero hn)

theorem stdRepF_congr (pat rep : List Char) :
    ∀ (f1 : Nat) (s : List Char) (f2 : Nat), s.length ≤ f1 → s.length ≤ f2 →
      stdRepF pat rep f1 s = stdRepF pat rep f2 s := by
  intro f1
  induction f1 with
  | zero =>
    intro s f2 h1 _
    have hs : s = [] := List.eq_nil_of_length_eq_zero (by omega)
    subst hs
    cases f2 <;> rfl
  | succ f1 ih =>
    intro s f2 h1 h2
    cases s with
    | nil => cases f2 <;> rfl
    | cons c s =>
      cases f2 with
      | zero => simp at h2
      | succ f2 =>
        simp only [List.length_cons] at h1 h2
        rw [stdRepF_cons, stdRepF_cons]
        by_cases hc : pat ≠ [] ∧ pat.isPrefixOf (c :: s) = true
        · rw [if_pos hc, if_pos hc]
          have hne := patlen_pos hc.1
          congr 1
          apply ih
          · simp only [List.length_drop, List.length_cons]
            omega
          · simp only [List.length_drop, List.length_cons]
            omega
        · rw [if_neg hc, if_neg hc]
          congr 1
          apply ih <;> omega

theorem countOccF_congr (pat : List Char) :
    ∀ (f1 : Nat) (s : List Char) (f2 : Nat), s.length ≤ f1 → s.length ≤ f2 →
      countOccF pat f1 s = countOccF pat f2 s := by
  intro f1
  induction f1 with
  | zero =>
    intro s f2 h1 _
    have hs : s = [] := List.eq_nil_of_length_eq_zero (by omega)
    subst hs
    cases f2 <;> rfl
  | succ f1 ih =>
    intro s f2 h1 h2
    cases s with
    | nil => cases f2 <;> rfl
    | cons c s =>
      cases f2 with
      | zero => simp at h2
      | succ f2 =>
        simp only [List.length_cons] at h1 h2
        rw [countOccF_cons, countOccF_cons]
        by_cases hc : pat ≠ [] ∧ pat.isPrefixOf (c :: s) = true
        · rw [if_pos hc, if_pos hc]
          have hne := patlen_pos hc.1
          congr 1
          apply ih
          · simp only [List.length_drop, List.length_cons]
            omega
          · simp only [List.length_drop, List.length_cons]
            omega
        · rw [if_neg hc, if_neg hc]
          apply ih <;> omega

theorem stdRep_id (pat rep : List Char) :
    ∀ (fuel : Nat) (s : List Char), (∀ i, pat.isPrefixOf (s.drop i) = false) →
      stdRepF pat rep fuel s = s := by
  intro fuel
  induction fuel with
  | zero => intro s _; rfl
  | succ fuel ih =>
    intro s h
    cases s with
    | nil => rfl
    | cons c s =>
      rw [stdRepF_cons, if_neg (fun hc => by
        have h0 : pat.isPrefixOf (c :: s) = false := h 0
        rw [h0] at hc
        exact absurd hc.2 (by simp))]
      rw [ih s (fun i => h (i + 1))]

theorem stdRep_append (pat rep : List Char) :
    ∀ (a b : List Char),
      (∀ i, i < a.length → pat.isPrefixOf ((a ++ b).drop i) = false) →
      stdRep pat rep (a ++ b) = a ++ stdRep pat rep b := by
  intro a
  induction a with
  | nil => intro b _; rfl
  | cons c a ih =>
    intro b h
    have h0 : pat.isPrefixOf (c :: (a ++ b)) = false := h 0 (by simp)
    have hrec := ih b (fun i hi => h (i + 1) (by simp only [List.length_cons]; omega))
    show stdRepF pat rep ((a ++ b).length + 1) (c :: (a ++ b)) =
      c :: (a ++ stdRep pat rep b)
    rw [stdRepF_cons, if_neg (fun hc => by
      rw [h0] at hc
      exact absurd hc.2 (by simp))]
    exact congrArg (List.cons c) hrec

theorem countOcc_append (pat : List Char) :
    ∀ (a b : List Char),
      (∀ i, i < a.length → pat.isPrefixOf ((a ++ b).drop i) = false) →
      countOcc pat (a ++ b) = countOcc pat b := by
  intro a
  induction a with
  | nil => intro b _; rfl
  | cons c a ih =>
    intro b h
    have h0 : pat.isPrefixOf (c :: (a ++ b)) = false := h 0 (by simp)
    have hrec := ih b (fun i hi => h (i + 1) (by simp only [List.length_cons]; omega))
    show countOccF pat ((a ++ b).length + 1) (c :: (a ++ b)) = countOcc pat b
    rw [countOccF_cons, if_neg (fun hc => by
      rw [h0] at hc
      exact absurd hc.2 (by simp))]
    exact hrec

theorem stdRep_step (pat rep : List Char) (hpat : pat ≠ []) :
    ∀ (s : List Char) (q : Nat), findSubstr pat s = some q →
      stdRep pat rep s =
        s.take q ++ rep ++ stdRep pat rep (s.drop (q + pat.length)) := by
  intro s
  induction s with
  | nil =>
    intro q h
    unfold findSubstr at h
    rw [pfx_nil hpat] at h
    simp at h
  | cons c s ih =>
    intro q h
    unfold findSubstr at h
    split at h
    · rename_i hp
      have hq : q = 0 := by simpa using h.symm
      subst hq
      show stdRepF pat rep (s.length + 1) (c :: s) = _
      rw [stdRepF_cons, if_pos ⟨hpat, hp⟩]
      simp only [List.take_zero, List.nil_append, Nat.zero_add]
      congr 1
      apply stdRepF_congr
      · simp only [List.length_drop, List.length_cons]
        have := patlen_pos hpat
        omega
      · exact le_refl _
    · rename_i hp
      cases hf : findSubstr pat s with
      | none => rw [hf] at h; simp at h
      | some j =>
        rw [hf] at h
        simp at h
        rw [← h]
        show stdRepF pat rep (s.length + 1) (c :: s) = _
        rw [stdRepF_cons, if_neg (fun hc => hp hc.2)]
        have hstep : stdRepF pat rep s.length s = stdRep pat rep s := rfl
        rw [hstep, ih j hf]
        have hidx : j + 1 + pat.length = (j + pat.length) + 1 := by omega
        rw [hidx]
        rfl

theorem countOcc_step (pat : List Char) (hpat : pat ≠ []) :
    ∀ (s : List Char) (q : Nat), findSubstr pat s = some q →
      countOcc pat s = 1 + countOcc pat (s.drop (q + pat.length)) := by
  intro s
  induction s with
  | nil =>
    intro q h
    unfold findSubstr at h
    rw [pfx_nil hpat] at h
    simp at h
  | cons c s ih =>
    intro q h
    unfold findSubstr at h
    split at h
    · rename_i hp
      have hq : q = 0 := by simpa using h.symm
      subst hq
      show countOccF pat (s.length + 1) (c :: s) = _
      rw [countOccF_cons, if_pos ⟨hpat, hp⟩]
      simp only [Nat.zero_add]
      congr 1
      apply countOccF_congr
      · simp only [List.length_drop, List.length_cons]
        have := patlen_pos hpat
        omega
      · exact le_refl _
    · rename_i hp
      cases hf : findSubstr pat s with
      | none => rw [hf] at h; simp at h
      | some j =>
        rw [hf] at h
        simp at h
        rw [← h]
        show countOccF pat (s.length + 1) (c :: s) = _
        rw [countOccF_cons, if_neg (fun hc => hp hc.2)]
        have hstep : countOccF pat s.length s = countOcc pat s := rfl
        rw [hstep, ih j hf]
        have hidx : j + 1 + pat.length = (j + pat.length) + 1 := by omega
        rw [hidx]
        rfl

theorem countOcc_le (pat : List Char) :
    ∀ (fuel : Nat) (s : List Char), countOccF pat fuel s ≤ s.length := by
  intro fuel
  induction fuel with
  | zero => intro s; exact Nat.zero_le _
  | succ fuel ih =>
    intro s
    cases s with
    | nil => exact Nat.zero_le _
    | cons c s =>
      rw [countOccF_cons]
      by_cases hc : pat ≠ [] ∧ pat.isPrefixOf (c :: s) = true
      · rw [if_pos hc]
        have hb := ih ((c :: s).drop pat.length)
        have hne := patlen_pos hc.1
        simp only [List.length_drop, List.length_cons] at hb ⊢
        omega
      · rw [if_neg hc]
        have hb := ih s
        simp only [List.length_cons]
        omega

/-! The key lemma: splicing a replacement whose characters are disjoint from
the pattern cannot create an occurrence of the pattern anywhere at or before
the end of the replacement, so the C loop's early rescan finds nothing the
clean left-to-right scan would not. -/

theorem no_occ_after_replace {pat rep : List Char} (hpat : pat ≠ [])
    (hrep : rep ≠ []) (hdisj : ∀ c ∈ rep, c ∉ pat) {s : List Char} {q : Nat}
    (hocc : pat.isPrefixOf (s.drop q) = true)
    (hmin : ∀ i, i < q → pat.isPrefixOf (s.drop i) = false) :
    ∀ i, i < q + rep.length →
      pat.isPrefixOf ((s.take q ++ rep ++ s.drop (q + pat.length)).drop i) = false := by
  intro i hi
  by_contra hcon
  rw [Bool.not_eq_false] at hcon
  have hplen := patlen_pos hpat
  have hqlen : q + pat.length ≤ s.length := by
    have hl := pfx_length hocc
    rw [List.length_drop] at hl
    omega
  have htke : (s.take q).length = q := by
    rw [List.length_take]
    omega
  have htr : (s.take q ++ rep).length = q + rep.length := by
    rw [List.length_append, htke]
  by_cases hA : i + pat.length ≤ q
  · have hiq : i < q := by omega
    have hdrop : (s.take q ++ rep ++ s.drop (q + pat.length)).drop i =
        (s.take q ++ rep).drop i ++ s.drop (q + pat.length) := by
      rw [List.drop_append_eq_append_drop, htr,
        Nat.sub_eq_zero_of_le (by omega), List.drop_zero]
    rw [hdrop] at hcon
    have hfit1 : pat.isPrefixOf ((s.take q ++ rep).drop i) = true := by
      apply pfx_append_left hcon
      rw [List.length_drop, htr]
      omega
    have hdrop2 : (s.take q ++ rep).drop i = (s.take q).drop i ++ rep := by
      rw [List.drop_append_eq_append_drop, htke,
        Nat.sub_eq_zero_of_le (by omega), List.drop_zero]
    rw [hdrop2] at hfit1
    have hfit2 : pat.isPrefixOf ((s.take q).drop i) = true := by
      apply pfx_append_left hfit1
      rw [List.length_drop, htke]
      omega
    rw [List.drop_take] at hfit2
    have hocc2 : pat.isPrefixOf (s.drop i) = true := pfx_of_take hfit2
    rw [hmin i hiq] at hocc2
    exact absurd hocc2 (by simp)
  · rcases pfx_ex hcon with ⟨u, hu⟩
    by_cases hB : i ≤ q
    · cases rep with
      | nil => exact hrep rfl
      | cons r0 rtl =>
        have hget : (s.take q ++ (r0 :: rtl) ++ s.drop (q + pat.length))[q]? =
            some r0 := by
          rw [List.getElem?_append_left (by rw [htr, List.length_cons]; omega)]
          rw [List.getElem?_append_right htke.le, htke, Nat.sub_self]
          simp
        have hg2 : (s.take q ++ (r0 :: rtl) ++ s.drop (q + pat.length))[q]? =
            pat[q - i]? := by
          have hd := List.getElem?_drop
            (s.take q ++ (r0 :: rtl) ++ s.drop (q + pat.length)) i (q - i)
          rw [hu, show i + (q - i) = q from by omega] at hd
          rw [← hd, List.getElem?_append_left (by omega)]
        have hpm : pat[q - i]? = some r0 := hg2.symm.trans hget
        exact hdisj r0 (List.mem_cons_self r0 rtl) (List.getElem?_mem hpm)
    · have hqi : q < i := by omega
      have hlt : i - q < rep.length := by omega
      cases hx : rep[i - q]? with
      | none =>
        rw [List.getElem?_eq_none_iff] at hx
        omega
      | some cx =>
        have hg : (s.take q ++ rep ++ s.drop (q + pat.length))[i]? = some cx := by
          rw [List.getElem?_append_left (by rw [htr]; omega)]
          rw [List.getElem?_append_right (by rw [htke]; omega), htke]
          exact hx
        have hg0 : (s.take q ++ rep ++ s.drop (q + pat.length))[i]? = pat[0]? := by
          have hd := List.getElem?_drop
            (s.take q ++ rep ++ s.drop (q + pat.length)) i 0
          rw [hu, Nat.add_zero] at hd
          rw [← hd, List.getElem?_append_left (by omega)]
        have hpm : pat[0]? = some cx := hg0.symm.trans hg
        exact hdisj cx (List.getElem?_mem hx) (List.getElem?_mem hpm)

/-- The C substitution loop, despite its quirky resume offset, computes the
clean left-to-right replace-all whenever the replacement is non-empty and
shares no character with the pattern. -/
theorem quirkyAux_eq (pat rep : List Char) (hpat : pat ≠ []) (hrep : rep ≠ [])
    (hdisj : ∀ c ∈ rep, c ∉ pat) :
    ∀ (fuel : Nat) (s : List Char) (p : Nat), countOcc pat s < fuel →
      (∀ i, i < p → pat.isPrefixOf (s.drop i) = false) →
      quirkyAux pat rep fuel s p = some (stdRep pat rep s) := by
  intro fuel
  induction fuel with
  | zero => intro s p hc _; omega
  | succ fuel ih =>
    intro s p hcount hbefore
    cases hf : findSubstr pat (s.drop p) with
    | none =>
      have hnone : ∀ i, pat.isPrefixOf (s.drop i) = false := by
        intro i
        by_cases hip : i < p
        · exact hbefore i hip
        · have hsh := findSubstr_none_occ pat (s.drop p) hf (i - p)
          rw [List.drop_drop, show p + (i - p) = i from by omega] at hsh
          exact hsh
      simp only [quirkyAux, hf]
      rw [show stdRep pat rep s = stdRepF pat rep s.length s from rfl,
        stdRep_id pat rep s.length s hnone]
    | some j =>
      simp only [quirkyAux, hf]
      have hocc : pat.isPrefixOf (s.drop (p + j)) = true := by
        have hs := findSubstr_some_occ pat (s.drop p) j hf
        rw [List.drop_drop] at hs
        exact hs
      have hmin : ∀ i, i < p + j → pat.isPrefixOf (s.drop i) = false := by
        intro i hi
        by_cases hip : i < p
        · exact hbefore i hip
        · have hs := findSubstr_min pat (s.drop p) j hf (i - p) (by omega)
          rw [List.drop_drop, show p + (i - p) = i from by omega] at hs
          exact hs
      have hzone := no_occ_after_replace hpat hrep hdisj hocc hmin
      have hfind : findSubstr pat s = some (p + j) :=
        findSubstr_make pat s (p + j) hocc hmin
      have hplen := patlen_pos hpat
      have hqlen : (p + j) + pat.length ≤ s.length :=
        findSubstr_some_bound hpat hfind
      have htke : (s.take (p + j)).length = p + j := by
        rw [List.length_take]
        omega
      have htr : (s.take (p + j) ++ rep).length = (p + j) + rep.length := by
        rw [List.length_append, htke]
      have hcnt : countOcc pat
          (s.take (p + j) ++ rep ++ s.drop (p + j + pat.length)) =
          countOcc pat (s.drop (p + j + pat.length)) := by
        apply countOcc_append
        intro i hi
        rw [htr] at hi
        exact hzone i hi
      have hcs : countOcc pat s = 1 + countOcc pat (s.drop (p + j + pat.length)) :=
        countOcc_step pat hpat s (p + j) hfind
      have hstep := ih (s.take (p + j) ++ rep ++ s.drop (p + j + pat.length))
        (j + rep.length)
        (by rw [hcnt]; omega)
        (by intro i hi
            exact hzone i (by omega))
      rw [hstep]
      congr 1
      have h1 : stdRep pat rep s =
          s.take (p + j) ++ rep ++ stdRep pat rep (s.drop (p + j + pat.length)) :=
        stdRep_step pat rep hpat s (p + j) hfind
      have h2 : stdRep pat rep
          (s.take (p + j) ++ rep ++ s.drop (p + j + pat.length)) =
          (s.take (p + j) ++ rep) ++ stdRep pat rep (s.drop (p + j + pat.length)) := by
        apply stdRep_append
        intro i hi
        rw [htr] at hi
        exact hzone i hi
      rw [h2, h1]

/-- One substitution pass of `FileLoggerGetPath` equals the clean
replace-all under the disjointness condition. -/
theorem replacePass_eq (pat rep s : List Char) (hpat : pat ≠ []) (hrep : rep ≠ [])
    (hdisj : ∀ c ∈ rep, c ∉ pat) :
    replacePass pat rep s = some (stdRep pat rep s) := by
  apply quirkyAux_eq pat rep hpat hrep hdisj
  · have hle : countOcc pat s ≤ s.length := countOcc_le pat s.length s
    omega
  · intro i hi
    omega

/-- A pass whose pattern never occurs returns the string unchanged (and the
`hasIndex` flag of the `${IDX}` pass stays false). -/
theorem replacePass_none (pat rep s : List Char)
    (h : findSubstr pat s = none) : replacePass pat rep s = some s := by
  unfold replacePass
  simp only [quirkyAux, List.drop_zero, h]

/-! Lemmas about `strrchr` and the index-suffix insertion. -/

theorem strrchr_not_mem (c : Char) : ∀ (s : List Char), c ∉ s →
    strrchrIdx c s = none := by
  intro s
  induction s with
  | nil => intro _; rfl
  | cons a rest ih =>
    intro h
    unfold strrchrIdx
    rw [ih (fun hm => h (List.mem_cons_of_mem a hm))]
    rw [if_neg (fun he => h (by rw [← he]; exact List.mem_cons_self a rest))]

theorem strrchr_append (c : Char) (t : List Char) (hct : c ∉ t) :
    ∀ (a : List Char), strrchrIdx c (a ++ t) = strrchrIdx c a := by
  intro a
  induction a with
  | nil =>
    show strrchrIdx c t = strrchrIdx c []
    rw [strrchr_not_mem c t hct]
    rfl
  | cons x a ih =>
    show strrchrIdx c (x :: (a ++ t)) = strrchrIdx c (x :: a)
    unfold strrchrIdx
    rw [ih]

theorem strrchr_at (c : Char) (b : List Char) (hcb : c ∉ b) :
    ∀ (a : List Char), strrchrIdx c (a ++ c :: b) = some a.length := by
  intro a
  induction a with
  | nil =>
    show strrchrIdx c (c :: b) = some 0
    unfold strrchrIdx
    rw [strrchr_not_mem c b hcb, if_pos rfl]
  | cons x a ih =>
    show strrchrIdx c (x :: (a ++ c :: b)) = some (a.length + 1)
    unfold strrchrIdx
    rw [ih]

theorem strrchr_lt (c : Char) : ∀ (s : List Char) (k : Nat),
    strrchrIdx c s = some k → k < s.length := by
  intro s
  induction s with
  | nil => intro k h; simp [strrchrIdx] at h
  | cons a rest ih =>
    intro k h
    unfold strrchrIdx at h
    cases hr : strrchrIdx c rest with
    | some j =>
      rw [hr] at h
      simp only [Option.some.injEq] at h
      have hj := ih j hr
      simp only [List.length_cons]
      omega
    | none =>
      rw [hr] at h
      by_cases hac : a = c
      · rw [if_pos hac] at h
        simp only [Option.some.injEq] at h
        simp only [List.length_cons]
        omega
      · rw [if_neg hac] at h
        simp at h

/-- Appending the index when the expanded path has no dot at all. -/
theorem insert_noext (s : List Char) (j : Nat) (h : '.' ∉ s) :
    insertIdxSuffix s j = s ++ '.' :: (Nat.repr j).data := by
  unfold insertIdxSuffix
  rw [strrchr_not_mem '.' s h]

/-- Inserting the index before the extension: when the path splits as
`a ++ '.' :: b` with no further dot and no separator of either kind in `b`,
the index lands between the last dot and the extension. -/
theorem insert_ext (a b : List Char) (j : Nat) (hdb : '.' ∉ b) (hsb : '/' ∉ b)
    (hbb : '\\' ∉ b) :
    insertIdxSuffix (a ++ '.' :: b) j =
      a ++ '.' :: (Nat.repr j).data ++ '.' :: b := by
  have hsep : strrchrIdx '.' (a ++ '.' :: b) = some a.length := strrchr_at '.' b hdb a
  have hnsl : '/' ∉ ('.' :: b) := by
    intro hm
    rcases List.mem_cons.mp hm with h1 | h1
    · exact absurd h1 (by decide)
    · exact hsb h1
  have hnbk : '\\' ∉ ('.' :: b) := by
    intro hm
    rcases List.mem_cons.mp hm with h1 | h1
    · exact absurd h1 (by decide)
    · exact hbb h1
  have hslash : strrchrIdx '/' (a ++ '.' :: b) = strrchrIdx '/' a :=
    strrchr_append '/' ('.' :: b) hnsl a
  have hback : strrchrIdx '\\' (a ++ '.' :: b) = strrchrIdx '\\' a :=
    strrchr_append '\\' ('.' :: b) hnbk a
  have htake : (a ++ '.' :: b).take a.length = a := List.take_left a ('.' :: b)
  have hdrop : (a ++ '.' :: b).drop (a.length + 1) = b := by
    rw [List.drop_append_eq_append_drop]
    rw [List.drop_eq_nil_of_le (by omega)]
    rw [show a.length + 1 - a.length = 1 from by omega]
    rfl
  unfold insertIdxSuffix
  rw [hsep, hslash, hback]
  cases hsl : strrchrIdx '/' a with
  | some k =>
    have hk := strrchr_lt '/' a k hsl
    have hka : k < a.length := hk
    simp only [decide_eq_true_eq]
    rw [if_pos hka, htake, hdrop]
  | none =>
    cases hbl : strrchrIdx '\\' a with
    | some k =>
      have hk := strrchr_lt '\\' a k hbl
      simp only [decide_eq_true_eq]
      rw [if_pos hk, htake, hdrop]
    | none =>
      simp only [if_true]
      rw [htake, hdrop]

/-! Arithmetic and accounting lemmas. -/

theorem gintWrap_small (i : Int) (h0 : 0 ≤ i) (h : i < g31) : gintWrap i = i := by
  unfold gintWrap g31 g32
  unfold g31 at h
  omega

theorem gintToGuint64_small (i : Int) (h0 : 0 ≤ i) (h : i < g64) :
    gintToGuint64 i = i.toNat := by
  unfold gintToGuint64 g64
  unfold g64 at h
  omega

theorem fsAppend_at {P : Type} [DecidableEq P] (fs : Fs P) (f : P) (m : List Char) :
    ∃ c, fsAppend fs f m f = some (Entry.reg c) := by
  unfold fsAppend
  cases h : fs f with
  | none => exact ⟨m, by simp [fsSet]⟩
  | some e =>
    cases e with
    | reg c => exact ⟨c ++ m, by simp [fsSet]⟩
    | dir => exact ⟨m, by simp [fsSet]⟩

theorem open_resets {P : Type} [DecidableEq P] (getPath : Nat → P) (fs : Fs P)
    (st : FileLogger P) (hex : fsExists fs (getPath 0) = true)
    (hap : st.append = false) :
    (fileLoggerOpen getPath fs st).2.1.logSize = 0 ∧
    (fileLoggerOpen getPath fs st).2.1.append = false := by
  simp only [fileLoggerOpen, hex, if_true, hap, true_or]
  cases h : fopenModel
      (shiftRev fs (scanLogs getPath fs st.maxFiles 0).reverse) (getPath 0) false with
  | none => simp [h]
  | some fs2 => simp [h]

theorem logWrite_nocross {P : Type} [DecidableEq P] (getPath : Nat → P)
    (win32 : Bool) (m : List Char) (fs : Fs P) (st : FileLogger P) (f : P)
    (s0 : Nat) (hls : st.logSize = (s0 : Int)) (hm : 0 < st.maxSize)
    (hlt : s0 + msgCost win32 m < st.maxSize)
    (h31 : s0 + msgCost win32 m < 2147483648) :
    logWrite getPath win32 m fs st f =
      (fsAppend fs f m, { st with logSize := ((s0 + msgCost win32 m : Nat) : Int) }, 0) := by
  have hsz1 : gintWrap (st.logSize + (m.length : Int)) = ((s0 + m.length : Nat) : Int) := by
    rw [hls, gintWrap_small]
    · push_cast; ring
    · positivity
    · have hmc : m.length ≤ msgCost win32 m := by
        unfold msgCost; omega
      unfold g31
      omega
  have hsz2 : (if win32 = true then gintWrap (gintWrap (st.logSize + (m.length : Int)) + 1)
      else gintWrap (st.logSize + (m.length : Int))) = ((s0 + msgCost win32 m : Nat) : Int) := by
    cases win32 with
    | false =>
      show gintWrap (st.logSize + (m.length : Int)) = _
      rw [hsz1]
      simp [msgCost, adjBytes]
    | true =>
      show gintWrap (gintWrap (st.logSize + (m.length : Int)) + 1) = _
      rw [hsz1, gintWrap_small]
      · simp [msgCost, adjBytes]
        omega
      · positivity
      · simp only [msgCost, adjBytes, if_true] at h31
        unfold g31
        omega
  have hno : ¬ (st.maxSize ≤ gintToGuint64 ((s0 + msgCost win32 m : Nat) : Int)) := by
    rw [gintToGuint64_small]
    · simp only [Int.toNat_natCast]
      omega
    · positivity
    · unfold g64
      omega
  unfold logWrite
  simp only [hm, if_true, hsz2, hno, if_false]

theorem logWrite_cross {P : Type} [DecidableEq P] (getPath : Nat → P)
    (win32 : Bool) (m : List Char) (fs : Fs P) (st : FileLogger P)
    (s0 : Nat) (hls : st.logSize = (s0 : Int)) (hm : 0 < st.maxSize)
    (hge : st.maxSize ≤ s0 + msgCost win32 m)
    (h31 : s0 + msgCost win32 m < 2147483648) :
    (logWrite getPath win32 m fs st (getPath 0)).2.2 = 1 ∧
    (logWrite getPath win32 m fs st (getPath 0)).2.1.logSize = 0 := by
  have hsz1 : gintWrap (st.logSize + (m.length : Int)) = ((s0 + m.length : Nat) : Int) := by
    rw [hls, gintWrap_small]
    · push_cast; ring
    · positivity
    · have hmc : m.length ≤ msgCost win32 m := by
        unfold msgCost; omega
      unfold g31
      omega
  have hsz2 : (if win32 = true then gintWrap (gintWrap (st.logSize + (m.length : Int)) + 1)
      else gintWrap (st.logSize + (m.length : Int))) = ((s0 + msgCost win32 m : Nat) : Int) := by
    cases win32 with
    | false =>
      show gintWrap (st.logSize + (m.length : Int)) = _
      rw [hsz1]
      simp [msgCost, adjBytes]
    | true =>
      show gintWrap (gintWrap (st.logSize + (m.length : Int)) + 1) = _
      rw [hsz1, gintWrap_small]
      · simp [msgCost, adjBytes]
        omega
      · positivity
      · simp only [msgCost, adjBytes, if_true] at h31
        unfold g31
        omega
  have hyes : st.maxSize ≤ gintToGuint64 ((s0 + msgCost win32 m : Nat) : Int) := by
    rw [gintToGuint64_small]
    · simp only [Int.toNat_natCast]
      omega
    · positivity
    · unfold g64
      omega
  have hex : fsExists (fsAppend fs (getPath 0) m) (getPath 0) = true := by
    rcases fsAppend_at fs (getPath 0) m with ⟨c, hc⟩
    simp [fsExists, hc]
  unfold logWrite
  simp only [hm, if_true, hsz2, hyes, if_pos]
  refine ⟨trivial, ?_⟩
  exact (open_resets getPath (fsAppend fs (getPath 0) m) _ hex rfl).1

theorem logMany_append {P : Type} [DecidableEq P] (getPath : Nat → P) (win32 : Bool)
    (m : List Char) : ∀ (msgs : List (List Char)) (fs : Fs P) (st : FileLogger P),
    logMany getPath win32 (msgs ++ [m]) fs st =
      ((fileLoggerLog getPath win32 m (logMany getPath win32 msgs fs st).1
          (logMany getPath win32 msgs fs st).2.1).1,
       (fileLoggerLog getPath win32 m (logMany getPath win32 msgs fs st).1
          (logMany getPath win32 msgs fs st).2.1).2.1,
       (logMany getPath win32 msgs fs st).2.2 +
         (fileLoggerLog getPath win32 m (logMany getPath win32 msgs fs st).1
            (logMany getPath win32 msgs fs st).2.1).2.2) := by
  intro msgs
  induction msgs with
  | nil => intro fs st; simp [logMany]
  | cons a rest ih =>
    intro fs st
    simp only [List.cons_append, logMany, List.append_eq, ih]
    simp [Nat.add_assoc]

theorem logMany_acc {P : Type} [DecidableEq P] (getPath : Nat → P) (win32 : Bool) :
    ∀ (msgs : List (List Char)) (fs : Fs P) (st : FileLogger P) (s0 : Nat),
    st.error = false → st.file = some (getPath 0) → 0 < st.maxSize →
    st.logSize = (s0 : Int) →
    s0 + totalCost win32 msgs < st.maxSize →
    s0 + totalCost win32 msgs < 2147483648 →
    (logMany getPath win32 msgs fs st).2.1 =
      { st with logSize := ((s0 + totalCost win32 msgs : Nat) : Int) } ∧
    (logMany getPath win32 msgs fs st).2.2 = 0 := by
  intro msgs
  induction msgs with
  | nil =>
    intro fs st s0 he hf hm hls _ _
    simp only [logMany, totalCost, List.map_nil, List.sum_nil, Nat.add_zero]
    constructor
    · rw [← hls]
    · trivial
  | cons a rest ih =>
    intro fs st s0 he hf hm hls hlt h31
    have hcost : totalCost win32 (a :: rest) = msgCost win32 a + totalCost win32 rest := by
      simp [totalCost]
    rw [hcost] at hlt h31 ⊢
    have hlog : fileLoggerLog getPath win32 a fs st =
        logWrite getPath win32 a fs st (getPath 0) := by
      unfold fileLoggerLog
      simp only [he, Bool.false_eq_true, if_false, hf]
    have hstep : fileLoggerLog getPath win32 a fs st =
        (fsAppend fs (getPath 0) a,
         { st with logSize := ((s0 + msgCost win32 a : Nat) : Int) }, 0) :=
      hlog.trans (logWrite_nocross getPath win32 a fs st (getPath 0) s0 hls hm
        (by omega) (by omega))
    have ihres := ih (fsAppend fs (getPath 0) a)
      { st with logSize := ((s0 + msgCost win32 a : Nat) : Int) }
      (s0 + msgCost win32 a) he hf hm rfl
      (by show s0 + msgCost win32 a + totalCost win32 rest < st.maxSize; omega)
      (by omega)
    simp only [logMany, hstep]
    constructor
    · rw [ihres.1, Nat.add_assoc]
    · have h2 := ihres.2
      simp only [Nat.cast_add] at h2 ⊢
      simpa using h2

/-! Invariant proof for the lazy-open protocol. -/

theorem loginv_init (n : Nat) : LogInv (initCfg n) := by
  refine ⟨?_, ?_, rfl, ?_⟩
  · intro t h
    simp [initCfg] at h
  · intro t h
    simp [initCfg] at h
  · intro t h
    simp [initCfg] at h

theorem loginv_step {n : Nat} {c c' : LogCfg n} (hinv : LogInv c)
    (hs : LogStep n c c') : LogInv c' := by
  obtain ⟨hA, hC, hD, hF⟩ := hinv
  cases hs with
  | acqRead t _ hpc hw =>
    refine ⟨?_, ?_, hD, ?_⟩
    · intro u hu
      by_cases he : u = t
      · subst he; simp at hu
      · simp [he] at hu
        exact hA u hu
    · intro u hu
      by_cases he : u = t
      · subst he; simp at hu
      · simp [he] at hu
        exact hC u hu
    · intro u hu
      by_cases he : u = t
      · subst he; simp at hu
      · simp [he] at hu
        exact hF u hu
  | readOpen t _ hpc hf =>
    refine ⟨?_, ?_, hD, ?_⟩
    · intro u hu
      by_cases he : u = t
      · subst he; simp at hu
      · simp [he] at hu
        exact hA u hu
    · intro u hu
      by_cases he : u = t
      · subst he; simp at hu
      · simp [he] at hu
        exact hC u hu
    · intro u hu
      by_cases he : u = t
      · subst he
        exact hf
      · simp [he] at hu
        exact hF u hu
  | readNull t _ hpc hf =>
    refine ⟨?_, ?_, hD, ?_⟩
    · intro u hu
      by_cases he : u = t
      · subst he; simp at hu
      · simp [he] at hu
        exact hA u hu
    · intro u hu
      by_cases he : u = t
      · subst he; simp at hu
      · simp [he] at hu
        exact hC u hu
    · intro u hu
      by_cases he : u = t
      · subst he; simp at hu
      · simp [he] at hu
        exact hF u hu
  | acqWrite t _ hpc hw hr =>
    refine ⟨?_, ?_, hD, ?_⟩
    · intro u hu
      by_cases he : u = t
      · subst he; rfl
      · simp [he] at hu
        have h2 := hA u hu
        rw [hw] at h2
        exact absurd h2 (by simp)
    · intro u hu
      by_cases he : u = t
      · subst he; simp at hu
      · simp [he] at hu
        exact hC u hu
    · intro u hu
      by_cases he : u = t
      · subst he; simp at hu
      · simp [he] at hu
        exact hF u hu
  | checkNull t _ hpc hf =>
    refine ⟨?_, ?_, hD, ?_⟩
    · intro u hu
      by_cases he : u = t
      · subst he
        exact hA u (Or.inl hpc)
      · simp [he] at hu
        exact hA u hu
    · intro u hu
      by_cases he : u = t
      · subst he
        exact hf
      · simp [he] at hu
        exact hC u hu
    · intro u hu
      by_cases he : u = t
      · subst he; simp at hu
      · simp [he] at hu
        exact hF u hu
  | checkSome t _ hpc hf =>
    refine ⟨?_, ?_, hD, ?_⟩
    · intro u hu
      by_cases he : u = t
      · subst he
        exact hA u (Or.inl hpc)
      · simp [he] at hu
        exact hA u hu
    · intro u hu
      by_cases he : u = t
      · subst he; simp at hu
      · simp [he] at hu
        exact hC u hu
    · intro u hu
      by_cases he : u = t
      · subst he; simp at hu
      · simp [he] at hu
        exact hF u hu
  | doOpen t _ hpc =>
    refine ⟨?_, ?_, ?_, ?_⟩
    · intro u hu
      by_cases he : u = t
      · subst he
        exact hA u (Or.inr (Or.inl hpc))
      · simp [he] at hu
        exact hA u hu
    · intro u hu
      by_cases he : u = t
      · subst he; simp at hu
      · simp [he] at hu
        have h1 := hA u (Or.inr (Or.inl hu))
        have h2 := hA t (Or.inr (Or.inl hpc))
        rw [h1] at h2
        exact absurd (Option.some.inj h2) he
    · show c.openCount + 1 = if true then 1 else 0
      rw [hD, hC t hpc]
      simp
    · intro u _
      rfl
  | relWrite t _ hpc =>
    refine ⟨?_, ?_, hD, ?_⟩
    · intro u hu
      by_cases he : u = t
      · subst he; simp at hu
      · simp [he] at hu
        have h1 := hA u hu
        have h2 := hA t (Or.inr (Or.inr hpc))
        rw [h1] at h2
        exact absurd (Option.some.inj h2) he
    · intro u hu
      by_cases he : u = t
      · subst he; simp at hu
      · simp [he] at hu
        exact hC u hu
    · intro u hu
      by_cases he : u = t
      · subst he; simp at hu
      · simp [he] at hu
        exact hF u hu
  | reAcqRead t _ hpc hw =>
    refine ⟨?_, ?_, hD, ?_⟩
    · intro u hu
      by_cases he : u = t
      · subst he; simp at hu
      · simp [he] at hu
        exact hA u hu
    · intro u hu
      by_cases he : u = t
      · subst he; simp at hu
      · simp [he] at hu
        exact hC u hu
    · intro u hu
      by_cases he : u = t
      · subst he; simp at hu
      · simp [he] at hu
        exact hF u hu

/-! Claim theorems. -/

/-- Claim C1, counterexample: a sink with `append = true` and `maxSize = 0`
whose active index-0 file exists (content "A") does get rotated by
`FileLoggerOpen`: the active file is truncated (so it no longer holds "A")
and a backup appears at index 1.  The claim asserts neither happens. -/
theorem claim1_counterexample :
    (fileLoggerOpen natPath c1fs c1st).1 0 ≠ some (Entry.reg ['A']) ∧
    (fileLoggerOpen natPath c1fs c1st).1 1 ≠ none ∧
    (fileLoggerOpen natPath c1fs c1st).1 0 = some (Entry.reg []) ∧
    (fileLoggerOpen natPath c1fs c1st).1 1 = some (Entry.reg ['A']) := by
  decide

/-- Claim C1, amended: with `maxSize = 0` the size comparison
`logSize >= maxSize` in `FileLoggerOpen` is vacuously true, so every open
with an existing active file takes the fresh-file branch regardless of
`append`: the backup shift runs, `append` is forced to false, `logSize`
resets to 0, and the active file is freshly truncated. -/
theorem claim1_amended {P : Type} [DecidableEq P] (getPath : Nat → P) (fs : Fs P)
    (st : FileLogger P) (c : List Char) (hinj : Function.Injective getPath)
    (hmax : st.maxSize = 0) (h0 : fs (getPath 0) = some (Entry.reg c)) :
    (fileLoggerOpen getPath fs st).2.1.append = false ∧
    (fileLoggerOpen getPath fs st).2.1.logSize = 0 ∧
    (fileLoggerOpen getPath fs st).1 (getPath 0) = some (Entry.reg []) ∧
    (fileLoggerOpen getPath fs st).2.2 = some (getPath 0) := by
  have hex : fsExists fs (getPath 0) = true := by simp [fsExists, h0]
  have key : shiftRev fs (scanLogs getPath fs st.maxFiles 0).reverse (getPath 0) = none ∨
      shiftRev fs (scanLogs getPath fs st.maxFiles 0).reverse (getPath 0) = fs (getPath 0) := by
    cases hmf : st.maxFiles with
    | zero => right; simp [scanLogs, shiftRev]
    | succ n =>
      have hreg : isRegular fs (getPath 0) = true := by simp [isRegular, h0]
      have hscan : scanLogs getPath fs (n + 1) 0 =
          getPath 0 :: scanLogs getPath fs n 1 := by
        simp [scanLogs, hreg]
      rw [hscan, List.reverse_cons]
      apply shiftRev_last
      intro hmem
      rcases scanLogs_mem getPath fs n 1 (getPath 0) (List.mem_reverse.mp hmem) with
        ⟨j, hj, hje⟩
      have : j = 0 := hinj hje.symm
      omega
  have key2 : shiftRev fs (scanLogs getPath fs st.maxFiles 0).reverse (getPath 0) = none ∨
      shiftRev fs (scanLogs getPath fs st.maxFiles 0).reverse (getPath 0) =
        some (Entry.reg c) := by
    rcases key with h | h
    · exact Or.inl h
    · exact Or.inr (by rw [h, h0])
  simp only [fileLoggerOpen, hex, if_true, hmax, Nat.zero_le, or_true, if_pos]
  rw [fopen_trunc _ _ c key2]
  simp [fsSet]

/-- Witness for the amended C1: a concrete open over the sink with
`maxSize = 0`, `append = true` and an existing active file of content "A"
forces `append` to false, resets `logSize`, truncates the active file and
succeeds. -/
theorem claim1_amended_witness :
    (fileLoggerOpen natPath c1fs c1st).2.1.append = false ∧
    (fileLoggerOpen natPath c1fs c1st).2.1.logSize = 0 ∧
    (fileLoggerOpen natPath c1fs c1st).1 (natPath 0) = some (Entry.reg []) ∧
    (fileLoggerOpen natPath c1fs c1st).2.2 = some (natPath 0) :=
  claim1_amended natPath c1fs c1st ['A'] (fun _ _ h => h) rfl rfl

/-- Claim C2, code bug evaluation: with configured backup count 0 (internal
`maxFiles = 1`, built by `GlibUtils_CreateFileLogger`), an existing active
file with content "A" is truncated by the rotation without any backup being
made: after `FileLoggerOpen`, no path in the filesystem holds the old
content.  The claim (and the code's own comment "we always keep one
backup") says the old content survives in a backup slot. -/
theorem claim2_bug_eval :
    (fileLoggerOpen natPath c2fs c2st).1 0 = some (Entry.reg []) ∧
    (fileLoggerOpen natPath c2fs c2st).1 1 = none ∧
    ∀ q : Nat, (fileLoggerOpen natPath c2fs c2st).1 q ≠ some (Entry.reg ['A']) := by
  refine ⟨by decide, by decide, ?_⟩
  intro q
  by_cases h : q = 0
  · subst h; decide
  · have : (fileLoggerOpen natPath c2fs c2st).1 q = c2fs q := by
      show (fsSet c2fs 0 (Entry.reg [])) q = c2fs q
      simp [fsSet, h]
    rw [this]
    simp [c2fs, h]

/-- Claim C3: with internal `maxFiles = 3` (configured `maxBackups = 2`),
regular files at indices 0 and 1 and nothing at index 2, one rotation
renames old index-1 into slot 2 and old index-0 into slot 1, and the
index-0 path is freshly created empty; `logSize` resets to 0 and the open
succeeds. -/
theorem claim3_rotation_chain {P : Type} [DecidableEq P] (getPath : Nat → P)
    (fs : Fs P) (st : FileLogger P) (c0 c1 : List Char)
    (hmf : st.maxFiles = 3) (hap : st.append = false)
    (h0 : fs (getPath 0) = some (Entry.reg c0))
    (h1 : fs (getPath 1) = some (Entry.reg c1))
    (h2 : fs (getPath 2) = none)
    (h01 : getPath 0 ≠ getPath 1) (h02 : getPath 0 ≠ getPath 2)
    (h12 : getPath 1 ≠ getPath 2) :
    (fileLoggerOpen getPath fs st).1 (getPath 2) = some (Entry.reg c1) ∧
    (fileLoggerOpen getPath fs st).1 (getPath 1) = some (Entry.reg c0) ∧
    (fileLoggerOpen getPath fs st).1 (getPath 0) = some (Entry.reg []) ∧
    (fileLoggerOpen getPath fs st).2.2 = some (getPath 0) ∧
    (fileLoggerOpen getPath fs st).2.1.logSize = 0 := by
  have hex : fsExists fs (getPath 0) = true := by simp [fsExists, h0]
  have hreg0 : isRegular fs (getPath 0) = true := by simp [isRegular, h0]
  have hreg1 : isRegular fs (getPath 1) = true := by simp [isRegular, h1]
  have hreg2 : isRegular fs (getPath 2) = false := by simp [isRegular, h2]
  have hscan : scanLogs getPath fs 3 0 = [getPath 0, getPath 1, getPath 2] := by
    rw [scanLogs_pos, hreg0, scanLogs_pos, hreg1, scanLogs_pos, hreg2]
    simp
  have hdir2 : isDir fs (getPath 2) = false := by simp [isDir, h2]
  have hex2 : fsExists fs (getPath 2) = false := by simp [fsExists, h2]
  have hA := shiftOne_rename fs (getPath 2) (getPath 1) (Entry.reg c1) hdir2 hex2 h1
  have hA2 : shiftOne fs (getPath 2) (getPath 1) (getPath 2) = some (Entry.reg c1) := by
    rw [hA]; simp
  have hA1 : shiftOne fs (getPath 2) (getPath 1) (getPath 1) = none := by
    rw [hA]; simp [h12]
  have hA0 : shiftOne fs (getPath 2) (getPath 1) (getPath 0) = some (Entry.reg c0) := by
    rw [shiftOne_other fs (getPath 2) (getPath 1) (getPath 0) h02 h01, h0]
  have hdirB : isDir (shiftOne fs (getPath 2) (getPath 1)) (getPath 1) = false := by
    simp [isDir, hA1]
  have hexB : fsExists (shiftOne fs (getPath 2) (getPath 1)) (getPath 1) = false := by
    simp [fsExists, hA1]
  have hB := shiftOne_rename (shiftOne fs (getPath 2) (getPath 1)) (getPath 1)
    (getPath 0) (Entry.reg c0) hdirB hexB hA0
  have hB1 : shiftOne (shiftOne fs (getPath 2) (getPath 1)) (getPath 1) (getPath 0)
      (getPath 1) = some (Entry.reg c0) := by
    rw [hB]; simp
  have hB0 : shiftOne (shiftOne fs (getPath 2) (getPath 1)) (getPath 1) (getPath 0)
      (getPath 0) = none := by
    rw [hB]; simp [h01]
  have hB2 : shiftOne (shiftOne fs (getPath 2) (getPath 1)) (getPath 1) (getPath 0)
      (getPath 2) = some (Entry.reg c1) := by
    rw [shiftOne_other _ (getPath 1) (getPath 0) (getPath 2)
      (fun h => h12 h.symm) (fun h => h02 h.symm), hA2]
  have hrev : ([getPath 0, getPath 1, getPath 2]).reverse =
      [getPath 2, getPath 1, getPath 0] := by simp
  have hshift : shiftRev fs [getPath 2, getPath 1, getPath 0] =
      shiftOne (shiftOne fs (getPath 2) (getPath 1)) (getPath 1) (getPath 0) := rfl
  have hopen : fopenModel
      (shiftOne (shiftOne fs (getPath 2) (getPath 1)) (getPath 1) (getPath 0))
      (getPath 0) false =
      some (fsSet (shiftOne (shiftOne fs (getPath 2) (getPath 1)) (getPath 1) (getPath 0))
        (getPath 0) (.reg [])) :=
    fopen_trunc _ _ [] (Or.inl hB0)
  simp only [fileLoggerOpen, hex, if_true, hap, hmf, hscan, hrev, hshift, true_or,
    hopen]
  refine ⟨?_, ?_, ?_, trivial, trivial⟩
  · simp only [fsSet]
    rw [if_neg (Ne.symm h02)]
    exact hB2
  · simp only [fsSet]
    rw [if_neg (Ne.symm h01)]
    exact hB1
  · simp [fsSet]

/-- Witness for C3 on a concrete filesystem with files "a" at index 0 and
"b" at index 1. -/
theorem claim3_witness :
    (fileLoggerOpen natPath c3fs c3st).1 2 = some (Entry.reg ['b']) ∧
    (fileLoggerOpen natPath c3fs c3st).1 1 = some (Entry.reg ['a']) ∧
    (fileLoggerOpen natPath c3fs c3st).1 0 = some (Entry.reg []) ∧
    (fileLoggerOpen natPath c3fs c3st).2.2 = some 0 ∧
    (fileLoggerOpen natPath c3fs c3st).2.1.logSize = 0 :=
  claim3_rotation_chain natPath c3fs c3st ['a'] ['b'] (by decide) rfl rfl rfl rfl
    (by decide) (by decide) (by decide)

/-- Claim C4: starting from an open sink with `logSize = 0` and a positive
`maxSize`, writing messages whose accounted bytes (length, plus one per
message on two-character line terminator platforms) sum below the threshold
leaves `logSize` equal to that exact sum with no rotation; appending one
more message that reaches the threshold makes the whole sequence perform
exactly one rotation, immediately after which `logSize` is 0.  Sums are
required below 2^31 so the `gint` counter does not wrap. -/
theorem claim4_size_accounting {P : Type} [DecidableEq P] (getPath : Nat → P)
    (win32 : Bool) (msgs : List (List Char)) (m : List Char) (fs : Fs P)
    (st : FileLogger P)
    (he : st.error = false) (hf : st.file = some (getPath 0))
    (hm : 0 < st.maxSize) (hls : st.logSize = 0)
    (hlt : totalCost win32 msgs < st.maxSize)
    (h31 : totalCost win32 msgs + msgCost win32 m < 2147483648) :
    ((logMany getPath win32 msgs fs st).2.1.logSize = (totalCost win32 msgs : Int) ∧
     (logMany getPath win32 msgs fs st).2.2 = 0) ∧
    (st.maxSize ≤ totalCost win32 msgs + msgCost win32 m →
      (logMany getPath win32 (msgs ++ [m]) fs st).2.2 = 1 ∧
      (logMany getPath win32 (msgs ++ [m]) fs st).2.1.logSize = 0) := by
  have hacc := logMany_acc getPath win32 msgs fs st 0 he hf hm (by rw [hls]; rfl)
    (by omega) (by omega)
  constructor
  · constructor
    · rw [hacc.1]
      simp
    · exact hacc.2
  · intro hge
    rw [logMany_append]
    have hst' := hacc.1
    have hlog : fileLoggerLog getPath win32 m (logMany getPath win32 msgs fs st).1
        (logMany getPath win32 msgs fs st).2.1 =
        logWrite getPath win32 m (logMany getPath win32 msgs fs st).1
          (logMany getPath win32 msgs fs st).2.1 (getPath 0) := by
      unfold fileLoggerLog
      rw [hst']
      simp only [he, Bool.false_eq_true, if_false, hf]
    have hcross := logWrite_cross getPath win32 m
      (logMany getPath win32 msgs fs st).1 (logMany getPath win32 msgs fs st).2.1
      (0 + totalCost win32 msgs)
      (by rw [hst']) (by rw [hst']; exact hm)
      (by show (logMany getPath win32 msgs fs st).2.1.maxSize ≤ _
          rw [hst']
          show st.maxSize ≤ _
          omega)
      (by omega)
    rw [hlog]
    constructor
    · show (logMany getPath win32 msgs fs st).2.2 +
        (logWrite getPath win32 m (logMany getPath win32 msgs fs st).1
          (logMany getPath win32 msgs fs st).2.1 (getPath 0)).2.2 = 1
      rw [hacc.2, hcross.1]
    · exact hcross.2

/-- Witness for C4: two messages of 2 and 3 bytes against an 8-byte
threshold leave the counter at 5 with no rotation; a further 4-byte message
crosses the threshold and rotates exactly once, resetting the counter. -/
theorem claim4_witness :
    ((logMany natPath false [['a', 'a'], ['b', 'b', 'b']] c4fs c4st).2.1.logSize =
        (totalCost false [['a', 'a'], ['b', 'b', 'b']] : Int) ∧
     (logMany natPath false [['a', 'a'], ['b', 'b', 'b']] c4fs c4st).2.2 = 0) ∧
    (c4st.maxSize ≤ totalCost false [['a', 'a'], ['b', 'b', 'b']] +
        msgCost false ['c', 'c', 'c', 'c'] →
      (logMany natPath false
        ([['a', 'a'], ['b', 'b', 'b']] ++ [['c', 'c', 'c', 'c']]) c4fs c4st).2.2 = 1 ∧
      (logMany natPath false
        ([['a', 'a'], ['b', 'b', 'b']] ++ [['c', 'c', 'c', 'c']]) c4fs
          c4st).2.1.logSize = 0) :=
  claim4_size_accounting natPath false [['a', 'a'], ['b', 'b', 'b']]
    ['c', 'c', 'c', 'c'] c4fs c4st rfl rfl (by decide) rfl (by decide) (by decide)

/-- Claim C5, counterexample: on the mixed-separator path `a/b.c\d` with
index 2 the code produces `a/b.2.c\d` (it compares the last dot against the
last `'/'` and consults `'\'` only when no `'/'` exists anywhere), while
the claim's rule — both separators recognized jointly — yields
`a/b.c\d.2`. -/
theorem claim5_counterexample :
    fileLoggerGetPath ("a/b.c\\d").data ['u'] ['1'] 2 =
      some (("a/b.2.c\\d").data) ∧
    specInsertIdxClaim ("a/b.c\\d").data 2 = ("a/b.c\\d.2").data ∧
    fileLoggerGetPath ("a/b.c\\d").data ['u'] ['1'] 2 ≠
      some (specInsertIdxClaim ("a/b.c\\d").data 2) := by
  decide

/-- Claim C5, amended: for a non-zero index with no `${IDX}` replacement in
the variable-expanded path, the expansion appends the index via
`insertIdxSuffix`, where the last-dot position is compared against the last
`'/'` when the path contains any `'/'`, and against the last `'\'` only
otherwise; for index 0 the path is returned unmodified.  The last two
conjuncts characterize the insertion: with no dot at all `.{index}` is
appended, and when the path ends in `'.' :: b` with no dot and no separator
of either kind in `b`, `.{index}` is inserted before that extension. -/
theorem claim5_amended (tpl user pid : List Char) (idx : Nat) (hidx : idx ≠ 0)
    (hu : user ≠ []) (hp : pid ≠ [])
    (hud : ∀ c ∈ user, c ∉ userTok) (hpd : ∀ c ∈ pid, c ∉ pidTok)
    (hno : findSubstr idxTok (stdRep pidTok pid (stdRep userTok user tpl)) = none) :
    fileLoggerGetPath tpl user pid idx =
      some (insertIdxSuffix (stdRep pidTok pid (stdRep userTok user tpl)) idx) ∧
    fileLoggerGetPath tpl user pid 0 =
      some (stdRep pidTok pid (stdRep userTok user tpl)) ∧
    (∀ (s : List Char) (j : Nat), '.' ∉ s →
      insertIdxSuffix s j = s ++ '.' :: (Nat.repr j).data) ∧
    (∀ (a b : List Char) (j : Nat), '.' ∉ b → '/' ∉ b → '\\' ∉ b →
      insertIdxSuffix (a ++ '.' :: b) j =
        a ++ '.' :: (Nat.repr j).data ++ '.' :: b) := by
  refine ⟨?_, ?_, insert_noext, insert_ext⟩
  · unfold fileLoggerGetPath
    rw [replacePass_eq userTok user tpl (by decide) hu hud, Option.some_bind]
    rw [replacePass_eq pidTok pid (stdRep userTok user tpl) (by decide) hp hpd,
      Option.some_bind]
    rw [replacePass_none idxTok (Nat.repr idx).data
      (stdRep pidTok pid (stdRep userTok user tpl)) hno, Option.map_some']
    rw [if_pos ⟨hidx, hno⟩]
  · unfold fileLoggerGetPath
    rw [replacePass_eq userTok user tpl (by decide) hu hud, Option.some_bind]
    rw [replacePass_eq pidTok pid (stdRep userTok user tpl) (by decide) hp hpd,
      Option.some_bind]
    rw [replacePass_none idxTok (Nat.repr 0).data
      (stdRep pidTok pid (stdRep userTok user tpl)) hno, Option.map_some']
    rw [if_neg (fun hc => hc.1 rfl)]

/-- Witness for C5 on the spec's own examples: `/var/log/app.log` with
index 2 yields `/var/log/app.2.log`, and `/var/log/app` yields
`/var/log/app.2`. -/
theorem claim5_witness :
    fileLoggerGetPath ("/var/log/app.log").data ("bob").data ("42").data 2 =
      some (("/var/log/app.2.log").data) ∧
    fileLoggerGetPath ("/var/log/app").data ("bob").data ("42").data 2 =
      some (("/var/log/app.2").data) := by
  constructor
  · have h := (claim5_amended ("/var/log/app.log").data ("bob").data ("42").data 2
      (by decide) (by decide) (by decide) (by decide) (by decide) (by decide)).1
    rw [h]
    decide
  · have h := (claim5_amended ("/var/log/app").data ("bob").data ("42").data 2
      (by decide) (by decide) (by decide) (by decide) (by decide) (by decide)).1
    rw [h]
    decide

/-- Claim C6: for every template, expansion at index 0 with a non-empty
user name and pid string sharing no character with their respective tokens
equals the template with all `${USER}`, `${PID}` and `${IDX}` occurrences
replaced (left-to-right, in that order) by the user name, the pid string
and `"0"`; no index suffix is added at index 0. -/
theorem claim6_expansion (tpl user pid : List Char)
    (hu : user ≠ []) (hp : pid ≠ [])
    (hud : ∀ c ∈ user, c ∉ userTok) (hpd : ∀ c ∈ pid, c ∉ pidTok) :
    fileLoggerGetPath tpl user pid 0 =
      some (stdRep idxTok (Nat.repr 0).data
        (stdRep pidTok pid (stdRep userTok user tpl))) := by
  unfold fileLoggerGetPath
  rw [replacePass_eq userTok user tpl (by decide) hu hud, Option.some_bind]
  rw [replacePass_eq pidTok pid (stdRep userTok user tpl) (by decide) hp hpd,
    Option.some_bind]
  rw [replacePass_eq idxTok (Nat.repr 0).data
    (stdRep pidTok pid (stdRep userTok user tpl)) (by decide) (by decide)
    (by decide), Option.map_some']
  rw [if_neg (fun hc => hc.1 rfl)]

/-- Witness for C6 on a template containing all three tokens. -/
theorem claim6_witness :
    fileLoggerGetPath ("$\x7bUSER\x7d-$\x7bPID\x7d-$\x7bIDX\x7d").data
      ("bob").data ("42").data 0 = some (("bob-42-0").data) := by
  have h := claim6_expansion ("$\x7bUSER\x7d-$\x7bPID\x7d-$\x7bIDX\x7d").data
    ("bob").data ("42").data (by decide) (by decide) (by decide) (by decide)
  rw [h]
  decide

/-- Claim C7: once the `error` flag is set, `FileLoggerLog` returns with no
effect at all: the filesystem and the state are unchanged (so the flag never
clears, the message is dropped, and the open is not retried), and no
rotation happens. -/
theorem claim7_sticky_error {P : Type} [DecidableEq P] (getPath : Nat → P)
    (win32 : Bool) (msg : List Char) (fs : Fs P) (st : FileLogger P)
    (h : st.error = true) :
    fileLoggerLog getPath win32 msg fs st = (fs, st, 0) := by
  simp [fileLoggerLog, h]

/-- Witness for C7 at a concrete errored sink. -/
theorem claim7_witness :
    fileLoggerLog natPath false ['x'] c7fs c7st = (c7fs, c7st, 0) :=
  claim7_sticky_error natPath false ['x'] c7fs c7st rfl

/-- Claim C8, counterexample: `maxSizeMB = 4096` yields a byte threshold of
0 (the 32-bit product `4096 * 1024 * 1024` wraps to 0), not the exact
product 4096 * 1,048,576. -/
theorem claim8_counterexample :
    (createFileLogger Nat true 4096 0).maxSize = 0 ∧
    (0 : Nat) ≠ 4096 * 1048576 := by
  decide

/-- Claim C8, amended: the byte threshold is `maxSizeMB * 1,048,576` reduced
modulo 2^32 (the multiplication is done in 32-bit `guint` arithmetic); it
equals the exact product exactly when that product fits in 32 bits, i.e.
for `maxSizeMB < 4096`. -/
theorem claim8_amended (P : Type) (a : Bool) (m k : Nat) :
    (createFileLogger P a m k).maxSize = m * 1048576 % n32 ∧
    (m * 1048576 < n32 → (createFileLogger P a m k).maxSize = m * 1048576) := by
  constructor
  · show m * 1024 * 1024 % n32 = m * 1048576 % n32
    norm_num [Nat.mul_assoc]
  · intro h
    show m * 1024 * 1024 % n32 = m * 1048576
    rw [Nat.mul_assoc]
    norm_num
    exact Nat.mod_eq_of_lt h

/-- Witness for C8 at `maxSizeMB = 4095`, where the product fits and the
threshold is exact. -/
theorem claim8_amended_witness :
    (createFileLogger Nat true 4095 0).maxSize = 4095 * 1048576 :=
  (claim8_amended Nat true 4095 0).2 (by norm_num [n32])

/-- Claim C9: under any interleaving of concurrent `write` calls against an
unopened sink, the double-checked locking of `FileLoggerLog` performs at
most one file-open/rotation sequence, and exactly one once any thread has
passed the open phase: in every reachable configuration the ghost count of
`FileLoggerOpen` invocations is at most 1, and equals 1 whenever some
thread reached the write phase. -/
theorem claim9_single_open {n : Nat} {c : LogCfg n} (h : LogReach n c) :
    c.openCount ≤ 1 ∧ ∀ t, c.pc t = LogPC.done → c.openCount = 1 := by
  have hinv : LogInv c := by
    induction h with
    | init => exact loginv_init n
    | step _ hs ih => exact loginv_step ih hs
  obtain ⟨hA, hC, hD, hF⟩ := hinv
  constructor
  · rw [hD]
    split <;> omega
  · intro t ht
    rw [hD, if_pos (hF t ht)]

/-- Witness for C9: a concrete two-thread execution in which thread 0 runs
the full open protocol; the reached configuration has open count exactly
1. -/
theorem claim9_witness :
    c9w8.openCount ≤ 1 ∧ ∀ t, c9w8.pc t = LogPC.done → c9w8.openCount = 1 :=
  claim9_single_open (by
    have h0 : LogReach 2 c9w0 := LogReach.init
    have h1 : LogReach 2 c9w1 :=
      LogReach.step h0 (LogStep.acqRead 0 c9w0 rfl rfl)
    have h2 : LogReach 2 c9w2 :=
      LogReach.step h1 (LogStep.readNull 0 c9w1 (by decide) rfl)
    have h3 : LogReach 2 c9w3 :=
      LogReach.step h2 (LogStep.acqWrite 0 c9w2 (by decide) rfl rfl)
    have h4 : LogReach 2 c9w4 :=
      LogReach.step h3 (LogStep.checkNull 0 c9w3 (by decide) rfl)
    have h5 : LogReach 2 c9w5 :=
      LogReach.step h4 (LogStep.doOpen 0 c9w4 (by decide))
    have h6 : LogReach 2 c9w6 :=
      LogReach.step h5 (LogStep.relWrite 0 c9w5 (by decide))
    have h7 : LogReach 2 c9w7 :=
      LogReach.step h6 (LogStep.reAcqRead 0 c9w6 (by decide) rfl)
    have h8 : LogReach 2 c9w8 :=
      LogReach.step h7 (LogStep.readOpen 0 c9w7 (by decide) rfl)
    exact h8)

/-- Claim C10: when the expanded index-0 path does not exist,
`FileLoggerOpen` performs no stat, no rotation and no state change: the
returned state is exactly the input state (in particular `logSize` and
`append` keep their old values), the filesystem changes only at the index-0
path (which becomes a fresh empty file), and the open succeeds. -/
theorem claim10_frame {P : Type} [DecidableEq P] (getPath : Nat → P) (fs : Fs P)
    (st : FileLogger P) (h : fs (getPath 0) = none) :
    fileLoggerOpen getPath fs st =
      (fsSet fs (getPath 0) (Entry.reg []), st, some (getPath 0)) ∧
    ∀ q, q ≠ getPath 0 → (fileLoggerOpen getPath fs st).1 q = fs q := by
  have hex : fsExists fs (getPath 0) = false := by simp [fsExists, h]
  have hopen : fopenModel fs (getPath 0) st.append =
      some (fsSet fs (getPath 0) (Entry.reg [])) := by
    simp [fopenModel, h]
  constructor
  · simp only [fileLoggerOpen, hex, Bool.false_eq_true, if_false, hopen]
  · intro q hq
    simp only [fileLoggerOpen, hex, Bool.false_eq_true, if_false, hopen]
    simp [fsSet, hq]

/-- Witness for C10 on an empty filesystem: the state (with `logSize = 7`,
`append = true`) is returned untouched. -/
theorem claim10_witness :
    fileLoggerOpen natPath c10fs c10st =
      (fsSet c10fs 0 (Entry.reg []), c10st, some 0) ∧
    ∀ q, q ≠ 0 → (fileLoggerOpen natPath c10fs c10st).1 q = c10fs q :=
  claim10_frame natPath c10fs c10st rfl

end FileLoggerModel
